import Mathlib

/-!
# QEmacs cscope plugin: query execution and result parsing

A shallow embedding of `plugins/cscope_plugin.c`.

Memory model.  A C `char` is a natural number (its byte value).  A `char *`
is the list of bytes of the object it points into, from the pointed-to byte
up to the last byte of that object: dereferencing reads the head, `p++`
drops it.  A load beyond the last byte of the object, or a store outside an
allocated object, is undefined in C and is reported as a `Fault`.
A `char a[n]` is a list of `n` bytes, a store `a[i] = c` is `List.set`.
Objects that the C code leaves uninitialised (the local `lstr`, the records
returned by `malloc`) start from contents passed in as parameters.
-/

namespace Cscope

/-- Abnormal outcomes of a run of the embedded program. -/
inductive Fault where
  /-- A load past the end of the object the pointer points into. -/
  | oob_read : Fault
  /-- A store, at the given index or offset, outside the allocated object. -/
  | oob_write : Nat → Fault
  /-- The recursion bound of an embedded loop was used up (see `parse_cscope_output`). -/
  | no_fuel : Fault
deriving DecidableEq

deriving instance DecidableEq for Except

/-- The record `struct CscopeOutput`: `char file[1024]; int line; char sym[256];
char context[1024];`. -/
structure CscopeOutput where
  file : List Nat
  line : Int
  sym : List Nat
  context : List Nat
deriving DecidableEq

/-- The string held by a `char` array: the bytes before the first NUL. -/
def c_str (a : List Nat) : List Nat := a.takeWhile (fun c => c != 0)

/-- The bytes of a string literal. -/
def bytes (s : String) : List Nat := s.toList.map Char.toNat

/-- The C library predicate `isspace` in the "C" locale. -/
def isspace (c : Nat) : Bool := c == 32 || (9 ≤ c && c ≤ 13)

/-- The C library predicate `isdigit`. -/
def isdigit (c : Nat) : Bool := 48 ≤ c && c ≤ 57

/-- The digit loop of the C library function `atoi`: accumulate decimal digits
until the first byte that is not a digit. -/
def atoi_digits : List Nat → Nat → Nat
  | [], acc => acc
  | c :: s, acc => if isdigit c then atoi_digits s (acc * 10 + (c - 48)) else acc

/-- The C library function `atoi`: skip white space, take an optional sign,
convert the decimal digits that follow. -/
def atoi (s : List Nat) : Int :=
  match s.dropWhile isspace with
  | 45 :: t => - (atoi_digits t 0 : Int)
  | 43 :: t => (atoi_digits t 0 : Int)
  | t => (atoi_digits t 0 : Int)

/-- The scanning loop of states 0, 1 and 2 of `parse_cscope_line`:
`while (*line != ' ') { if (i >= limit) { line++; continue; } buf[i] = *line; line++; i++; }`
with `limit` being `sizeof(out->file)-1`, `sizeof(out->sym)-1` and `7`.
Returns the array, the index `i` and the pointer, which is left on the space. -/
def scan_field (limit : Nat) : List Nat → Nat → List Nat →
    Except Fault (List Nat × Nat × List Nat)
  | [], _, _ => .error .oob_read
  | c :: line, i, buf =>
    if c != 32 then
      if i ≥ limit then scan_field limit line i buf
      else scan_field limit line (i + 1) (buf.set i c)
    else .ok (buf, i, c :: line)

/-- The loop condition of state 3, as written:
`*line != '\n' || *line != '\0' || *line != 0`. -/
def context_cond (c : Nat) : Bool := c != 10 || c != 0 || c != 0

/-- The loop of state 3 of `parse_cscope_line`:
`while (cond) { if (i >= sizeof(out->context)-1) { out->context[i-1] = '\0'; goto out; }
out->context[i] = *line; line++; i++; } out->context[i] = '\0';`. -/
def scan_context : List Nat → Nat → List Nat → Except Fault (List Nat)
  | [], _, _ => .error .oob_read
  | c :: line, i, buf =>
    if context_cond c then
      if i ≥ 1024 - 1 then .ok (buf.set (i - 1) 0)
      else scan_context line (i + 1) (buf.set i c)
    else .ok (buf.set i 0)

/-- The function `parse_cscope_line(char *line, CscopeOutput *out)`.
`lstr0` is the initial content of the uninitialised local `char lstr[8]`,
`out0` the content of `*out` on entry.  The state machine visits the states
0, 1, 2, 3 in this order and leaves through `goto out` in state 3. -/
def parse_cscope_line (lstr0 : List Nat) (out0 : CscopeOutput) (line : List Nat) :
    Except Fault CscopeOutput :=
  -- case 0: file name with relative path
  match scan_field (1024 - 1) line 0 out0.file with
  | .error e => .error e
  | .ok (file, i, line) =>
    let file := file.set i 0
    let line := line.tail
    -- case 1: symbol scope
    match scan_field (256 - 1) line 0 out0.sym with
    | .error e => .error e
    | .ok (sym, i, line) =>
      let sym := sym.set i 0
      let line := line.tail
      -- case 2: line number
      match scan_field 7 line 0 lstr0 with
      | .error e => .error e
      | .ok (lstr, _, line) =>
        let lstr := lstr.set 7 0
        let ln := atoi lstr
        let line := line.tail
        -- case 3: context or preview of the line
        match scan_context line 0 out0.context with
        | .error e => .error e
        | .ok context => .ok { file := file, line := ln, sym := sym, context := context }

/-- The first step of the C library function `strtok(s, "\n")`: skip the
leading delimiters (`s += strspn(s, "\n")`). -/
def skip_delims : List Nat → Except Fault (List Nat)
  | [] => .error .oob_read
  | c :: s => if c == 10 then skip_delims s else .ok (c :: s)

/-- The second step of `strtok(s, "\n")`: find the end of the token that starts
at `s`.  When the token ends at a delimiter the delimiter is overwritten with
NUL and the saved pointer is set behind it; when it ends at the NUL of the
string the saved pointer is left on that NUL.  Returns the memory seen through
the token pointer after the store, and the memory at the saved pointer. -/
def split_token : List Nat → Except Fault (List Nat × List Nat)
  | [] => .error .oob_read
  | c :: s =>
    if c == 10 then .ok (0 :: s, s)
    else if c == 0 then .ok (0 :: s, 0 :: s)
    else
      match split_token s with
      | .error e => .error e
      | .ok (tok, save) => .ok (c :: tok, save)

/-- The C library function `strtok(s, "\n")`, `s` being the string on the first
call and the saved pointer on the following ones.  Returns the token
(`none` for `NULL`) and the new saved pointer. -/
def strtok (s : List Nat) : Except Fault (Option (List Nat) × List Nat) :=
  match skip_delims s with
  | .error e => .error e
  | .ok [] => .error .oob_read
  | .ok (c :: t) =>
    if c == 0 then .ok (none, c :: t)
    else
      match split_token (c :: t) with
      | .error e => .error e
      | .ok (tok, save) => .ok (some tok, save)

/-- The loop `while (tok != NULL) { parse_cscope_line(tok, &out[i]); i++;
tok = strtok(NULL, "\n"); }` of `parse_cscope_output`.  `out` is the array
obtained from `malloc(nr_entries * sizeof(CscopeOutput))`; the first store of
`parse_cscope_line` through `&out[i]` (`out->file[0]` or `out->file[i] = 0`,
made before any byte of the token other than the first is read) is outside that
array when `i` is not below its length.  `lstr0 i` is the stack content found by
the `i`-th call of `parse_cscope_line`.  The first argument bounds the number
of iterations. -/
def parse_loop (lstr0 : Nat → List Nat) :
    Nat → Option (List Nat) → List Nat → Nat → List CscopeOutput →
    Except Fault (List CscopeOutput)
  | _, none, _, _, out => .ok out
  | 0, some _, _, _, _ => .error .no_fuel
  | fuel + 1, some tok, save, i, out =>
    match out.get? i with
    | none => .error (.oob_write i)
    | some o =>
      match parse_cscope_line (lstr0 i) o tok with
      | .error e => .error e
      | .ok r =>
        match strtok save with
        | .error e => .error e
        | .ok (tok, save) => parse_loop lstr0 fuel tok save (i + 1) (out.set i r)

/-- The function `parse_cscope_output(char *output, int nr_entries)`.
`heap` tells whether `malloc` succeeds (`none` is the `NULL` result),
`out0 k` is the content `malloc` left in `out[k]`.  Every token holds at
least one byte and the saved pointer only moves forward, so the loop makes
fewer iterations than `output` has bytes. -/
def parse_cscope_output (heap : Bool) (lstr0 : Nat → List Nat) (out0 : Nat → CscopeOutput)
    (output : List Nat) (nr_entries : Nat) : Except Fault (Option (List CscopeOutput)) :=
  if !heap then .ok none
  else
    match strtok output with
    | .error e => .error e
    | .ok (tok, save) =>
      match parse_loop lstr0 (output.length + 1) tok save 0
          ((List.range nr_entries).map out0) with
      | .error e => .error e
      | .ok out => .ok (some out)

/-- Modelled from the spec: the line number that the host editor's `eb_get_pos`
reports for the end of a buffer holding the captured output, which
`do_cscope_query_and_show` stores in `cs.entries` and passes as `nr_entries`:
the number of newline characters in the captured output. -/
def eb_line_count (captured : List Nat) : Nat := captured.count 10

/-- The lines `eb_write(b, 0, cs_resp, rlen); eb_get_pos(b, &ln, &cn, b->total_size);
cs.entries = ln; cs.out = parse_cscope_output(cs_resp, ln);` of
`do_cscope_query_and_show`: `cs_resp` is the response buffer, of which the first
`rlen` bytes are the captured output. -/
def query_and_show_parse (heap : Bool) (lstr0 : Nat → List Nat) (out0 : Nat → CscopeOutput)
    (cs_resp : List Nat) (rlen : Nat) : Nat × Except Fault (Option (List CscopeOutput)) :=
  let ln := eb_line_count (cs_resp.take rlen)
  (ln, parse_cscope_output heap lstr0 out0 cs_resp ln)

/-- The part of the global `CscopeState cs` that the modelled functions use.
`os` stands for the window handle. -/
structure CscopeState where
  os : Nat
  op : Int
  sym : List Nat
  symdir : List Nat
  out : List CscopeOutput
  entries : Int
deriving DecidableEq

/-- The conversion `%s` of the C library: the string an array holds; the read
runs past the array when it holds no NUL. -/
def read_str (a : List Nat) : Except Fault (List Nat) :=
  if a.contains 0 then .ok (c_str a) else .error .oob_read

/-- The C library function `snprintf(buf, size, ...)` seen through the string it
leaves in `buf`: the formatted text cut to `size - 1` bytes. -/
def snprintf (size : Nat) (text : List Nat) : List Nat := text.take (size - 1)

/-- The conversion `%d` of the C library. -/
def fmt_d (n : Int) : List Nat :=
  if n < 0 then 45 :: (Nat.toDigits 10 n.natAbs).map Char.toNat
  else (Nat.toDigits 10 n.natAbs).map Char.toNat

/-- The function `cscope_select_file`.  `index` is the result of the host's
`list_get_pos(s)`.  The result is the call of `do_load_at_line(cs.os, fpath, line)`
that is made, if any; the global state is not assigned to. -/
def cscope_select_file (cs : CscopeState) (index : Int) :
    Except Fault (CscopeState × Option (Nat × List Nat × Int)) :=
  if index < 0 || index ≥ cs.entries then .ok (cs, none)
  else
    match cs.out.get? index.toNat with
    | none => .error .oob_read
    | some o =>
      match read_str cs.symdir, read_str o.file with
      | .ok dir, .ok file =>
        .ok (cs, some (cs.os, snprintf 2048 (dir ++ bytes "/" ++ file), o.line))
      | _, _ => .error .oob_read

/-- The command line of `do_cscope_query`:
`snprintf(cs_command, sizeof(cs_command), "cscope -p8 -d -f %s/cscope.out -L%d %s", symdir, opc, sym)`
with `char cs_command[128]`. -/
def cs_command (symdir : List Nat) (opc : Int) (sym : List Nat) : List Nat :=
  snprintf 128 (bytes "cscope -p8 -d -f " ++ symdir ++ bytes "/cscope.out -L" ++ fmt_d opc
    ++ bytes " " ++ sym)

/-- The C library function `memset(a + off, val, n)` on an array `a`. -/
def memset (a : List Nat) (off val n : Nat) : Except Fault (List Nat) :=
  if off + n ≤ a.length then .ok (a.take off ++ List.replicate n val ++ a.drop (off + n))
  else .error (.oob_write off)

/-- One call `fread(outbuf+tlen, 1, OUTBUF_WIN_SZ, co)` as the stream answers it:
the bytes delivered and the values of `ferror(co)` and `feof(co)` after it. -/
structure ReadEvent where
  data : List Nat
  err : Bool
  eof : Bool
deriving DecidableEq

/-- What `do_cscope_query` hands back: its return value and the values stored
through `response` and `len`, if any. -/
structure QueryResult where
  ret : Int
  response : Option (List Nat)
  len : Option Nat
deriving DecidableEq

/-- The constant `OUTBUF_WIN_SZ`. -/
def OUTBUF_WIN_SZ : Nat := 1024

/-- The label `out:` of `do_cscope_query`. -/
def query_out (outbuf : List Nat) (tlen : Nat) : QueryResult :=
  if tlen == 0 then { ret := -1, response := some outbuf, len := some tlen }
  else { ret := 0, response := some outbuf, len := some tlen }

/-- The loop `for(;;)` of `do_cscope_query` over the answers of the stream.  A
stream whose answers are used up answers zero bytes at end of input.
`heap n` tells whether `realloc(outbuf, n * OUTBUF_WIN_SZ)` succeeds; `junk` is
what the grown part of the block holds. -/
def read_loop (heap : Nat → Bool) (junk : List Nat) :
    List ReadEvent → List Nat → Nat → Nat → Except Fault QueryResult
  | [], outbuf, tlen, _ => .ok (query_out outbuf tlen)
  | ev :: co, outbuf, tlen, nr_reads =>
    let data := ev.data.take OUTBUF_WIN_SZ
    let rc := data.length
    if outbuf.length < tlen + rc then .error (.oob_write tlen)
    else
      let outbuf := outbuf.take tlen ++ data ++ outbuf.drop (tlen + rc)
      if (rc == 0 || rc < OUTBUF_WIN_SZ) && ev.err then
        .ok { ret := -1, response := none, len := none }
      else if (rc == 0 || rc < OUTBUF_WIN_SZ) && ev.eof then
        .ok (query_out outbuf (tlen + rc))
      else
        let tlen := tlen + rc
        let nr_reads := nr_reads + 1
        if !heap nr_reads then .ok { ret := -1, response := none, len := none }
        else
          let ob := (outbuf ++ junk).take (nr_reads * OUTBUF_WIN_SZ)
          match memset ob (nr_reads * OUTBUF_WIN_SZ) 0 OUTBUF_WIN_SZ with
          | .error e => .error e
          | .ok ob => read_loop heap junk co ob tlen nr_reads

/-- The function `do_cscope_query`.  `heap 1` tells whether the first `malloc`
succeeds, `popen` is the C library function: the stream of the spawned
command, or `none` for `NULL`.  The block that `malloc` returns holds arbitrary
bytes (here 1s), which the `memset` that follows overwrites. -/
def do_cscope_query (heap : Nat → Bool) (junk : List Nat)
    (popen : List Nat → Option (List ReadEvent))
    (symdir : List Nat) (opc : Int) (sym : List Nat) : Except Fault QueryResult :=
  let command := cs_command symdir opc sym
  if !heap 1 then .ok { ret := -1, response := none, len := none }
  else
    match memset (List.replicate OUTBUF_WIN_SZ 1) 0 0 OUTBUF_WIN_SZ with
    | .error e => .error e
    | .ok outbuf =>
      match popen command with
      | none => .ok { ret := -1, response := none, len := none }
      | some co => read_loop heap junk co outbuf 0 1

/-- A zero-filled array of `n` bytes. -/
def zeros (n : Nat) : List Nat := List.replicate n 0

/-- A record whose arrays are zero-filled. -/
def blank : CscopeOutput :=
  { file := zeros 1024, line := 0, sym := zeros 256, context := zeros 1024 }

/-- The four strings of a parse result. -/
def fields (r : CscopeOutput) : List Nat × List Nat × Int × List Nat :=
  (c_str r.file, c_str r.sym, r.line, c_str r.context)

/-- The session of the specification's example: index directory `/idx`, one record
with file `src/foo.c` and line 42. -/
def session_example : CscopeState :=
  { os := 7, op := 1, sym := bytes "foo", symdir := bytes "/idx" ++ zeros 1020,
    out := [{ file := bytes "src/foo.c" ++ zeros 1015, line := 42,
              sym := bytes "main" ++ zeros 252,
              context := bytes "int foo(void) \x7b" ++ zeros 1009 }],
    entries := 1 }

/-- The four strings of a parse result, if there is one. -/
def result_fields (r : Except Fault CscopeOutput) :
    Option (List Nat × List Nat × Int × List Nat) :=
  match r with
  | .ok r => some (fields r)
  | .error _ => none

/-- The command line as the specification writes it:
`cscope -p8 -d -f <dir>/cscope.out -L<op> <sym>` with the three values in full. -/
def command_text (dir : List Nat) (op : Int) (sym : List Nat) : List Nat :=
  bytes "cscope -p8 -d -f " ++ dir ++ bytes "/cscope.out -L" ++ fmt_d op ++ bytes " " ++ sym

/-- A line that `parse_cscope_line` can take apart: three spaces at least, and,
being a line of a string, no newline and no NUL. -/
def line_ok (l : List Nat) : Prop := 3 ≤ l.count 32 ∧ 10 ∉ l ∧ 0 ∉ l

instance (l : List Nat) : Decidable (line_ok l) := by
  unfold line_ok
  infer_instance

/-- The newline that separates a line from the lines after it, if there are any. -/
def sep (ls : List (Nat × List Nat)) : List Nat := if ls.isEmpty then [] else [10]

/-- A captured output: the lines `l` of `ls` in order, each one preceded by `g`
newlines more than the one that separates it from the line before, and `m`
newlines behind the last line. -/
def body : List (Nat × List Nat) → Nat → List Nat
  | [], m => List.replicate m 10
  | (g, l) :: ls, m => List.replicate g 10 ++ (l ++ (sep ls ++ body ls m))

/-- The response buffer: the captured output, its NUL, and the bytes `pad` that
can be read behind it. -/
def text (ls : List (Nat × List Nat)) (m : Nat) (pad : List Nat) : List Nat :=
  body ls m ++ 0 :: pad

/-- The memory behind the byte that ends a line, `ls` being the lines after it. -/
def behind (ls : List (Nat × List Nat)) (m : Nat) (pad : List Nat) : List Nat :=
  if ls.isEmpty then (text [] m pad).tail else text ls m pad

/-- The line of index `k` as `strtok` hands it to `parse_cscope_line`: its bytes,
the NUL that ends it, and the memory behind. -/
def token (ls : List (Nat × List Nat)) (m : Nat) (pad : List Nat) (k : Nat) : List Nat :=
  (ls.getD k (0, [])).2 ++ 0 :: behind (ls.drop (k + 1)) m pad

/-- The parse of one token, as a record. -/
def parsed (lstr0 : Nat → List Nat) (out0 : Nat → CscopeOutput) (i : Nat) (tok : List Nat) :
    CscopeOutput :=
  match parse_cscope_line (lstr0 i) (out0 i) tok with
  | .ok r => r
  | .error _ => out0 i

/-- The parses of the lines `ls`, the first of which is stored at index `i`. -/
def stored (lstr0 : Nat → List Nat) (out0 : Nat → CscopeOutput) :
    Nat → List (Nat × List Nat) → Nat → List Nat → List CscopeOutput
  | _, [], _, _ => []
  | i, (_, l) :: ls, m, pad =>
    parsed lstr0 out0 i (l ++ 0 :: behind ls m pad) :: stored lstr0 out0 (i + 1) ls m pad

/-- One call of `strtok` followed by the loop of `parse_cscope_output`. -/
def tokenize_and_parse (lstr0 : Nat → List Nat) (fuel : Nat) (save : List Nat) (i : Nat)
    (out : List CscopeOutput) : Except Fault (List CscopeOutput) :=
  match strtok save with
  | .error e => .error e
  | .ok (tok, save) => parse_loop lstr0 fuel tok save i out

/-- The array sizes of the C declarations. -/
def sized (lstr0 : Nat → List Nat) (out0 : Nat → CscopeOutput) : Prop :=
  ∀ k, (lstr0 k).length = 8 ∧ (out0 k).file.length = 1024 ∧ (out0 k).sym.length = 256 ∧
    (out0 k).context.length = 1024

/-- The number of tokens that a string holds for the delimiter newline, as the
specification words it: the non-empty runs of bytes other than newline, up to
the first NUL. The flag tells whether the byte before was a byte of a token. -/
def count_tokens : Bool → List Nat → Nat
  | _, [] => 0
  | false, c :: s =>
    if c == 10 then count_tokens false s
    else if c == 0 then 0
    else 1 + count_tokens true s
  | true, c :: s =>
    if c == 10 then count_tokens false s
    else if c == 0 then 0
    else count_tokens true s

/-- The number of records that the loop of `parse_cscope_output` has yet to
store: one for the token in hand and one for each token behind the saved
pointer. -/
def tokens_left (tok : Option (List Nat)) (save : List Nat) : Nat :=
  match tok with
  | none => 0
  | some _ => 1 + count_tokens false save

/-- The integer written by a sequence of decimal digits. -/
def decimal_value (ds : List Nat) : Nat := ds.foldl (fun a c => 10 * a + (c - 48)) 0

/-! ## The scanning loops -/

theorem context_cond_true (c : Nat) : context_cond c = true := by
  unfold context_cond
  by_cases h : c = 10 <;> simp [h]

theorem scan_field_skip (limit c : Nat) (line : List Nat) (i : Nat) (buf : List Nat)
    (hc : c ≠ 32) (hi : limit ≤ i) :
    scan_field limit (c :: line) i buf = scan_field limit line i buf := by
  simp [scan_field, hc, hi]

theorem scan_field_store (limit c : Nat) (line : List Nat) (i : Nat) (buf : List Nat)
    (hc : c ≠ 32) (hi : i < limit) :
    scan_field limit (c :: line) i buf = scan_field limit line (i + 1) (buf.set i c) := by
  simp [scan_field, hc, hi]

theorem scan_field_general (limit : Nat) (t rest : List Nat) (ht : 32 ∉ t) :
    ∀ pre post : List Nat, pre.length ≤ limit → limit < (pre ++ post).length →
      scan_field limit (t ++ 32 :: rest) pre.length (pre ++ post) =
        .ok (pre ++ t.take (limit - pre.length) ++ post.drop (min t.length (limit - pre.length)),
          min (pre.length + t.length) limit, 32 :: rest) := by
  induction t with
  | nil =>
    intro pre post h1 _
    simp [scan_field, h1]
  | cons c t ih =>
    intro pre post h1 h2
    have hc : c ≠ 32 := fun h => ht (by simp [h])
    have ht2 : 32 ∉ t := fun h => ht (by simp [h])
    by_cases hlim : limit ≤ pre.length
    · have hk : limit - pre.length = 0 := by omega
      rw [List.cons_append, scan_field_skip _ _ _ _ _ hc hlim, ih ht2 pre post h1 h2, hk]
      simp
      omega
    · cases post with
      | nil => simp at h2; omega
      | cons p post =>
        have h3 : (pre ++ [c]).length ≤ limit := by simp; omega
        have h4 : limit < ((pre ++ [c]) ++ post).length := by simp at h2 ⊢; omega
        have := ih ht2 (pre ++ [c]) post h3 h4
        obtain ⟨k, hk⟩ : ∃ k, limit - pre.length = k + 1 := ⟨limit - pre.length - 1, by omega⟩
        have hk2 : limit - (pre.length + 1) = k := by omega
        simp only [List.length_append, List.length_singleton] at this
        rw [List.cons_append, scan_field_store _ _ _ _ _ hc (by omega),
          List.set_append_right _ _ (le_refl _), Nat.sub_self, List.set_cons_zero,
          show pre ++ c :: post = pre ++ [c] ++ post by simp, this, hk, hk2]
        simp
        constructor
        · rw [Nat.add_min_add_right]
          rfl
        · omega

/-- The scanning loop started at index 0 on a token that a space ends. -/
theorem scan_field_token (limit : Nat) (t rest buf : List Nat) (ht : 32 ∉ t)
    (hbuf : limit < buf.length) :
    scan_field limit (t ++ 32 :: rest) 0 buf =
      .ok (t.take limit ++ buf.drop (min t.length limit), min t.length limit, 32 :: rest) := by
  have := scan_field_general limit t rest ht [] buf (by simp) (by simpa using hbuf)
  simpa using this

theorem set_at_length (a b : List Nat) (v : Nat) (n : Nat) (hn : n = a.length)
    (hb : b ≠ []) : (a ++ b).set n v = a ++ v :: b.tail := by
  subst hn
  cases b with
  | nil => exact absurd rfl hb
  | cons x b => simp

theorem scan_context_general :
    ∀ rest pre post : List Nat, (pre ++ post).length = 1024 → pre.length ≤ 1023 →
      1024 ≤ pre.length + rest.length →
      scan_context rest pre.length (pre ++ post) =
        .ok ((pre ++ rest.take (1023 - pre.length) ++ post.drop (1023 - pre.length)).set 1022 0) := by
  intro rest
  induction rest with
  | nil => intro pre post _ h2 h3; simp at h3; omega
  | cons c rest ih =>
    intro pre post h1 h2 h3
    by_cases hfull : 1023 ≤ pre.length
    · have hk : pre.length = 1023 := by omega
      simp [scan_context, context_cond_true, hk]
    · cases post with
      | nil => simp at h1; omega
      | cons p post =>
        have := ih (pre ++ [c]) post (by simpa using h1) (by simp; omega)
          (by simp at h3 ⊢; omega)
        obtain ⟨k, hk⟩ : ∃ k, 1023 - pre.length = k + 1 := ⟨1023 - pre.length - 1, by omega⟩
        have hk2 : 1023 - (pre.length + 1) = k := by omega
        simp only [List.length_append, List.length_singleton] at this
        simp only [scan_context, context_cond_true, if_true, ge_iff_le, Nat.add_one_sub_one,
          hfull, if_false, List.set_append_right _ _ (le_refl _), Nat.sub_self,
          List.set_cons_zero]
        rw [show pre ++ c :: post = pre ++ [c] ++ post by simp, this, hk, hk2]
        simp

/-- The context loop started at index 0: it copies 1023 bytes, whatever they
are, and then stores NUL at index 1022. -/
theorem scan_context_copy (rest buf : List Nat) (hbuf : buf.length = 1024)
    (hrest : 1024 ≤ rest.length) :
    scan_context rest 0 buf = .ok ((rest.take 1023 ++ buf.drop 1023).set 1022 0) := by
  have := scan_context_general rest [] buf (by simpa using hbuf) (by simp) (by simpa using hrest)
  simpa using this

/-- The array after a token was scanned into it and NUL stored behind it. -/
theorem terminate_field (limit : Nat) (t buf : List Nat) (hbuf : limit < buf.length) :
    (t.take limit ++ buf.drop (min t.length limit)).set (min t.length limit) 0 =
      t.take limit ++ 0 :: buf.drop (min t.length limit + 1) := by
  rw [set_at_length _ _ _ _ (by simp [Nat.min_comm])]
  · simp
  · intro h
    have := congrArg List.length h
    simp at this
    omega

/-- What `parse_cscope_line` computes on a line with three spaces, when the 1024
bytes behind the third space can be read. -/
theorem parse_cscope_line_eq (lstr0 : List Nat) (out0 : CscopeOutput)
    (f s d rest : List Nat) (hf : 32 ∉ f) (hs : 32 ∉ s) (hd : 32 ∉ d)
    (hfile : out0.file.length = 1024) (hsym : out0.sym.length = 256)
    (hlstr : lstr0.length = 8) (hctx : out0.context.length = 1024)
    (hrest : 1024 ≤ rest.length) :
    parse_cscope_line lstr0 out0 (f ++ 32 :: (s ++ 32 :: (d ++ 32 :: rest))) =
      .ok { file := f.take 1023 ++ 0 :: out0.file.drop (min f.length 1023 + 1),
            line := atoi ((d.take 7 ++ lstr0.drop (min d.length 7)).set 7 0),
            sym := s.take 255 ++ 0 :: out0.sym.drop (min s.length 255 + 1),
            context := (rest.take 1023 ++ out0.context.drop 1023).set 1022 0 } := by
  unfold parse_cscope_line
  simp only [Nat.add_one_sub_one]
  rw [scan_field_token 1023 f _ _ hf (by omega)]
  simp only [List.tail_cons]
  rw [scan_field_token 255 s _ _ hs (by omega)]
  simp only [List.tail_cons]
  rw [scan_field_token 7 d _ _ hd (by omega)]
  simp only [List.tail_cons]
  rw [scan_context_copy rest _ hctx hrest, terminate_field 1023 f _ (by omega),
    terminate_field 255 s _ (by omega)]

theorem scan_context_over_read :
    ∀ (rest : List Nat) (i : Nat) (buf : List Nat), i + rest.length < 1024 →
      scan_context rest i buf = .error .oob_read := by
  intro rest
  induction rest with
  | nil => intro i buf _; simp [scan_context]
  | cons c rest ih =>
    intro i buf h
    have hi : ¬ (i ≥ 1024 - 1) := by
      simp only [List.length_cons] at h
      omega
    simp only [scan_context, context_cond_true, if_true, hi, if_false]
    exact ih _ _ (by simp only [List.length_cons] at h; omega)

/-- What `parse_cscope_line` does on a line with three spaces when fewer than
1024 bytes can be read behind the third space: the context loop, which no byte
stops, reads past the last of them. -/
theorem parse_cscope_line_over_read (lstr0 : List Nat) (out0 : CscopeOutput)
    (f s d rest : List Nat) (hf : 32 ∉ f) (hs : 32 ∉ s) (hd : 32 ∉ d)
    (hfile : out0.file.length = 1024) (hsym : out0.sym.length = 256)
    (hlstr : lstr0.length = 8) (hrest : rest.length < 1024) :
    parse_cscope_line lstr0 out0 (f ++ 32 :: (s ++ 32 :: (d ++ 32 :: rest))) =
      .error .oob_read := by
  unfold parse_cscope_line
  simp only [Nat.add_one_sub_one]
  rw [scan_field_token 1023 f _ _ hf (by omega)]
  simp only [List.tail_cons]
  rw [scan_field_token 255 s _ _ hs (by omega)]
  simp only [List.tail_cons]
  rw [scan_field_token 7 d _ _ hd (by omega)]
  simp only [List.tail_cons]
  rw [scan_context_over_read rest 0 _ (by omega)]

theorem c_str_terminated (a b : List Nat) (ha : 0 ∉ a) : c_str (a ++ 0 :: b) = a := by
  unfold c_str
  induction a with
  | nil => simp
  | cons x a ih =>
    have hx : x ≠ 0 := fun h => ha (by simp [h])
    have ha2 : 0 ∉ a := fun h => ha (by simp [h])
    simp [List.takeWhile_cons, hx, ih ha2]

theorem atoi_digits_eq (ds tl : List Nat) (hds : ∀ c ∈ ds, 48 ≤ c ∧ c ≤ 57) :
    ∀ acc, atoi_digits (ds ++ 0 :: tl) acc = ds.foldl (fun a c => 10 * a + (c - 48)) acc := by
  induction ds with
  | nil => intro acc; simp [atoi_digits, isdigit]
  | cons c ds ih =>
    intro acc
    have hc := hds c (by simp)
    have := ih (fun x hx => hds x (by simp [hx])) (acc * 10 + (c - 48))
    simp [atoi_digits, isdigit, hc.1, hc.2, this, Nat.mul_comm]

/-- The library conversion agrees with the written value on a digit string. -/
theorem atoi_decimal (ds tl : List Nat) (hds : ∀ c ∈ ds, 48 ≤ c ∧ c ≤ 57) :
    atoi (ds ++ 0 :: tl) = (decimal_value ds : Int) := by
  cases ds with
  | nil => simp [atoi, isspace, atoi_digits, isdigit, decimal_value]
  | cons c ds =>
    have hc := hds c (by simp)
    have h1 : isspace c = false := by
      simp [isspace]
      omega
    have h2 : (c :: ds ++ 0 :: tl).dropWhile isspace = c :: (ds ++ 0 :: tl) := by
      simp [List.dropWhile_cons, h1]
    have h3 := atoi_digits_eq (c :: ds) tl hds 0
    unfold atoi
    rw [h2]
    split
    · rename_i heq; simp at heq; omega
    · rename_i heq; simp at heq; omega
    · rw [← List.cons_append, h3]; rfl

theorem c_str_length_le (a b : List Nat) : (c_str (a ++ 0 :: b)).length ≤ a.length := by
  unfold c_str
  induction a with
  | nil => simp
  | cons x a ih =>
    by_cases hx : x = 0
    · simp [List.takeWhile_cons, hx]
    · simp [List.takeWhile_cons, hx]
      exact ih

theorem set_1022 (a : List Nat) (ha : 1023 ≤ a.length) :
    a.set 1022 0 = a.take 1022 ++ 0 :: a.drop 1023 := by
  have h := List.take_append_drop 1022 a
  have hd : a.drop 1022 ≠ [] := by
    intro h0
    have := congrArg List.length h0
    simp at this
    omega
  have h2 := set_at_length (a.take 1022) (a.drop 1022) 0 1022 (by simp; omega) hd
  rw [h] at h2
  rw [h2]
  simp

theorem zeros_length (n : Nat) : (zeros n).length = n := by
  simp only [zeros, List.length_replicate]

theorem blank_file_length : blank.file.length = 1024 := zeros_length 1024

theorem blank_sym_length : blank.sym.length = 256 := zeros_length 256

theorem blank_context_length : blank.context.length = 1024 := zeros_length 1024

theorem not_mem_replicate (v c n : Nat) (h : v ≠ c) : v ∉ List.replicate n c :=
  fun hm => h (List.eq_of_mem_replicate hm)

/-! ## Claims about `parse_cscope_line` -/

/-- When 1024 bytes can be read behind the third space of a line,
`parse_cscope_line` returns. The loop condition of the context state holds for
every character, so the scan stops at no newline and no NUL: it copies the 1023
bytes behind the third space into `context[0..1022]`, leaves through the
capacity check and stores the terminator at `context[1022]`; the string left in
`context` has at most 1022 bytes. -/
theorem context_scan_stops_at_capacity_only (lstr0 : List Nat) (out0 : CscopeOutput)
    (f s d rest : List Nat) (hf : 32 ∉ f) (hs : 32 ∉ s) (hd : 32 ∉ d)
    (hfile : out0.file.length = 1024) (hsym : out0.sym.length = 256)
    (hlstr : lstr0.length = 8) (hctx : out0.context.length = 1024)
    (hrest : 1024 ≤ rest.length) :
    (∀ c, context_cond c = true) ∧
    ∃ r, parse_cscope_line lstr0 out0 (f ++ 32 :: (s ++ 32 :: (d ++ 32 :: rest))) = .ok r ∧
      r.context = (rest.take 1023 ++ out0.context.drop 1023).set 1022 0 ∧
      r.context.take 1022 = rest.take 1022 ∧ r.context.get? 1022 = some 0 ∧
      (c_str r.context).length ≤ 1022 := by
  refine ⟨context_cond_true, _, parse_cscope_line_eq lstr0 out0 f s d rest hf hs hd hfile hsym
    hlstr hctx hrest, rfl, ?_, ?_, ?_⟩
  · simp only
    rw [set_1022 _ (by simp; omega), List.take_append_of_le_length (by simp; omega),
      List.take_take, List.take_append_of_le_length (by simp; omega), List.take_take]
    simp
  · simp only
    rw [set_1022 _ (by simp; omega), List.get?_eq_getElem?,
      List.getElem?_append_right (by simp)]
    have h0 : 1022 - (List.take 1022 (List.take 1023 rest ++ List.drop 1023 out0.context)).length
        = 0 := by
      simp
      omega
    rw [h0, List.getElem?_cons_zero]
  · simp only
    rw [set_1022 _ (by simp; omega)]
    refine le_trans (c_str_length_le _ _) ?_
    simp

theorem context_scan_stops_at_capacity_only_witness :
    (∀ c, context_cond c = true) ∧
    ∃ r, parse_cscope_line (zeros 8) blank
        (bytes "a.c" ++ 32 :: (bytes "f" ++ 32 :: (bytes "7" ++ 32 :: List.replicate 1024 10))) = .ok r ∧
      r.context = ((List.replicate 1024 10).take 1023 ++ blank.context.drop 1023).set 1022 0 ∧
      r.context.take 1022 = (List.replicate 1024 10).take 1022 ∧ r.context.get? 1022 = some 0 ∧
      (c_str r.context).length ≤ 1022 :=
  context_scan_stops_at_capacity_only (zeros 8) blank (bytes "a.c") (bytes "f") (bytes "7")
    (List.replicate 1024 10) (by decide) (by decide) (by decide) blank_file_length
    blank_sym_length (zeros_length 8) blank_context_length
    (by simp only [List.length_replicate]; omega)

/-- When 1024 bytes can be read behind the third space: for a file token longer
than 1023 bytes the `file` array holds the first 1023 bytes of the token followed
by the terminator, and the scan still advances to the first space: `sym`, `line`
and `context` are those obtained for the same line with a file token that fits. -/
theorem long_file_token_is_cut (lstr0 : List Nat) (out0 : CscopeOutput)
    (f g s d rest : List Nat) (hf : 32 ∉ f) (hlong : 1023 < f.length)
    (hg : 32 ∉ g) (_hshort : g.length ≤ 1023) (hs : 32 ∉ s) (hd : 32 ∉ d)
    (hfile : out0.file.length = 1024) (hsym : out0.sym.length = 256)
    (hlstr : lstr0.length = 8) (hctx : out0.context.length = 1024)
    (hrest : 1024 ≤ rest.length) :
    ∃ r r', parse_cscope_line lstr0 out0 (f ++ 32 :: (s ++ 32 :: (d ++ 32 :: rest))) = .ok r ∧
      parse_cscope_line lstr0 out0 (g ++ 32 :: (s ++ 32 :: (d ++ 32 :: rest))) = .ok r' ∧
      r.file = f.take 1023 ++ [0] ∧ (0 ∉ f → c_str r.file = f.take 1023) ∧
      r.sym = r'.sym ∧ r.line = r'.line ∧ r.context = r'.context := by
  refine ⟨_, _, parse_cscope_line_eq lstr0 out0 f s d rest hf hs hd hfile hsym hlstr hctx hrest,
    parse_cscope_line_eq lstr0 out0 g s d rest hg hs hd hfile hsym hlstr hctx hrest,
    ?_, ?_, rfl, rfl, rfl⟩
  · have h1 : min f.length 1023 + 1 = 1024 := by omega
    simp only [h1]
    rw [List.drop_of_length_le (by omega)]
  · intro h0
    exact c_str_terminated _ _ (fun h => h0 (List.mem_of_mem_take h))

theorem long_file_token_is_cut_witness :
    ∃ r r', parse_cscope_line (zeros 8) blank
        (List.replicate 1500 97 ++ 32 :: (bytes "main" ++ 32 :: (bytes "42" ++ 32 :: zeros 1024)))
          = .ok r ∧
      parse_cscope_line (zeros 8) blank
        (bytes "a.c" ++ 32 :: (bytes "main" ++ 32 :: (bytes "42" ++ 32 :: zeros 1024))) = .ok r' ∧
      r.file = (List.replicate 1500 97).take 1023 ++ [0] ∧
      (0 ∉ List.replicate 1500 97 → c_str r.file = (List.replicate 1500 97).take 1023) ∧
      r.sym = r'.sym ∧ r.line = r'.line ∧ r.context = r'.context :=
  long_file_token_is_cut (zeros 8) blank (List.replicate 1500 97) (bytes "a.c") (bytes "main")
    (bytes "42") (zeros 1024) (not_mem_replicate 32 97 1500 (by decide))
    (by simp only [List.length_replicate]; omega) (by decide) (by decide) (by decide) (by decide)
    blank_file_length blank_sym_length (zeros_length 8) blank_context_length
    (le_of_eq (zeros_length 1024).symm)

/-- When 1024 bytes can be read behind the third space: for a line-number token
of more than 7 decimal digits only the first 7 digits are captured, `line` is the
integer they write, and `context` is still scanned from the text behind the space
that ends the whole token. -/
theorem long_line_number_is_capped (lstr0 : List Nat) (out0 : CscopeOutput)
    (f s d rest : List Nat) (hf : 32 ∉ f) (hs : 32 ∉ s)
    (hdig : ∀ c ∈ d, 48 ≤ c ∧ c ≤ 57) (hlong : 7 < d.length)
    (hfile : out0.file.length = 1024) (hsym : out0.sym.length = 256)
    (hlstr : lstr0.length = 8) (hctx : out0.context.length = 1024)
    (hrest : 1024 ≤ rest.length) :
    ∃ r, parse_cscope_line lstr0 out0 (f ++ 32 :: (s ++ 32 :: (d ++ 32 :: rest))) = .ok r ∧
      r.line = (decimal_value (d.take 7) : Int) ∧
      r.context = (rest.take 1023 ++ out0.context.drop 1023).set 1022 0 := by
  have hd : 32 ∉ d := fun h => by have := hdig 32 h; omega
  refine ⟨_, parse_cscope_line_eq lstr0 out0 f s d rest hf hs hd hfile hsym hlstr hctx hrest,
    ?_, rfl⟩
  have h1 : min d.length 7 = 7 := by omega
  have h2 : lstr0.drop 7 ≠ [] := by
    intro h0
    have := congrArg List.length h0
    simp at this
    omega
  simp only [h1]
  rw [set_at_length _ _ _ _ (by simp; omega) h2]
  exact atoi_decimal _ _ (fun c hc => hdig c (List.mem_of_mem_take hc))

theorem long_line_number_is_capped_witness :
    (∃ r, parse_cscope_line (zeros 8) blank
        (bytes "a.c" ++ 32 :: (bytes "main" ++ 32 :: (bytes "12345678" ++ 32 :: zeros 1024)))
          = .ok r ∧
      r.line = (decimal_value ((bytes "12345678").take 7) : Int) ∧
      r.context = ((zeros 1024).take 1023 ++ blank.context.drop 1023).set 1022 0) ∧
    decimal_value ((bytes "12345678").take 7) = 1234567 :=
  ⟨long_line_number_is_capped (zeros 8) blank (bytes "a.c") (bytes "main") (bytes "12345678")
    (zeros 1024) (by decide) (by decide) (by decide) (by decide)
    blank_file_length blank_sym_length (zeros_length 8) blank_context_length
    (le_of_eq (zeros_length 1024).symm), by decide⟩

/-- C10 (the code at the failing inputs): the loop condition of the context state
holds for every character, so the scan is bounded by the capacity alone and
reads 1024 bytes behind the third space, whatever they are. On a line with
three spaces that has fewer bytes behind the third space, as a NUL-ended line of
ordinary length in its own buffer has, `parse_cscope_line` reads past the end of
the buffer and does not return; with 1024 bytes there it returns, with the 1023
bytes behind the third space copied and NUL stored at `context[1022]`. -/
theorem context_scan_reads_1024_bytes (lstr0 : List Nat) (out0 : CscopeOutput)
    (f s d rest : List Nat) (hf : 32 ∉ f) (hs : 32 ∉ s) (hd : 32 ∉ d)
    (hfile : out0.file.length = 1024) (hsym : out0.sym.length = 256)
    (hlstr : lstr0.length = 8) (hctx : out0.context.length = 1024) :
    (∀ c, context_cond c = true) ∧
    (rest.length < 1024 →
      parse_cscope_line lstr0 out0 (f ++ 32 :: (s ++ 32 :: (d ++ 32 :: rest))) =
        .error .oob_read) ∧
    (1024 ≤ rest.length →
      ∃ r, parse_cscope_line lstr0 out0 (f ++ 32 :: (s ++ 32 :: (d ++ 32 :: rest))) = .ok r ∧
        r.context = (rest.take 1023 ++ out0.context.drop 1023).set 1022 0 ∧
        (c_str r.context).length ≤ 1022) := by
  refine ⟨context_cond_true, ?_, ?_⟩
  · intro h
    exact parse_cscope_line_over_read lstr0 out0 f s d rest hf hs hd hfile hsym hlstr h
  · intro h
    obtain ⟨_, r, h1, h2, _, _, h3⟩ :=
      context_scan_stops_at_capacity_only lstr0 out0 f s d rest hf hs hd hfile hsym hlstr hctx h
    exact ⟨r, h1, h2, h3⟩

theorem context_scan_reads_1024_bytes_witness :
    (∀ c, context_cond c = true) ∧
    ((bytes "x" ++ [0]).length < 1024 →
      parse_cscope_line (zeros 8) blank
        (bytes "a.c" ++ 32 :: (bytes "f" ++ 32 :: (bytes "7" ++ 32 :: (bytes "x" ++ [0])))) =
          .error .oob_read) ∧
    (1024 ≤ (bytes "x" ++ [0]).length →
      ∃ r, parse_cscope_line (zeros 8) blank
          (bytes "a.c" ++ 32 :: (bytes "f" ++ 32 :: (bytes "7" ++ 32 :: (bytes "x" ++ [0])))) =
            .ok r ∧
        r.context = ((bytes "x" ++ [0]).take 1023 ++ blank.context.drop 1023).set 1022 0 ∧
        (c_str r.context).length ≤ 1022) :=
  context_scan_reads_1024_bytes (zeros 8) blank (bytes "a.c") (bytes "f") (bytes "7")
    (bytes "x" ++ [0]) (by decide) (by decide) (by decide) blank_file_length
    blank_sym_length (zeros_length 8) blank_context_length

set_option maxRecDepth 100000 in
/-- C1 (evaluation at failing inputs): the loop of the context state does not stop
at a newline, so a line whose context is ended by end-of-line keeps the newline
and the text behind it in `context`; and a line-number token shorter than 7
digits is converted together with the bytes that the uninitialised `lstr` held
before. On the line of the claim, with a NUL behind the context and no digit
left in `lstr`, the four fields are the four tokens. -/
theorem parse_cscope_line_field_defects :
    result_fields (parse_cscope_line (zeros 8) blank
        (bytes "src/foo.c main 42 int foo(void) \x7b\nsrc/bar.c" ++ zeros 1100)) =
      some (bytes "src/foo.c", bytes "main", 42, bytes "int foo(void) \x7b\nsrc/bar.c") ∧
    result_fields (parse_cscope_line (bytes "1234567" ++ [0]) blank
        (bytes "src/foo.c main 42 int foo(void) \x7b" ++ zeros 1100)) =
      some (bytes "src/foo.c", bytes "main", 4234567, bytes "int foo(void) \x7b") ∧
    result_fields (parse_cscope_line (zeros 8) blank
        (bytes "src/foo.c main 42 int foo(void) \x7b" ++ zeros 1100)) =
      some (bytes "src/foo.c", bytes "main", 42, bytes "int foo(void) \x7b") := by
  refine ⟨?_, ?_, ?_⟩ <;> decide!

/-- C8 (the code at the failing inputs): of a context text of 1023 bytes or more
the `context` field keeps the first 1022 bytes only: the capacity exit stores
the terminator at index 1022, over the last byte that was copied. -/
theorem long_context_keeps_1022_bytes (lstr0 : List Nat) (out0 : CscopeOutput)
    (f s d ctx rest : List Nat) (hf : 32 ∉ f) (hs : 32 ∉ s) (hd : 32 ∉ d)
    (hfile : out0.file.length = 1024) (hsym : out0.sym.length = 256)
    (hlstr : lstr0.length = 8) (hctx : out0.context.length = 1024)
    (hnul : 0 ∉ ctx) (hlen : 1023 ≤ ctx.length) (hrest : 1 ≤ rest.length) :
    ∃ r, parse_cscope_line lstr0 out0 (f ++ 32 :: (s ++ 32 :: (d ++ 32 :: (ctx ++ rest)))) =
        .ok r ∧ c_str r.context = ctx.take 1022 ∧ (c_str r.context).length = 1022 := by
  have h := parse_cscope_line_eq lstr0 out0 f s d (ctx ++ rest) hf hs hd hfile hsym hlstr hctx
    (by simp; omega)
  have hc : c_str ((List.take 1023 (ctx ++ rest) ++ List.drop 1023 out0.context).set 1022 0) =
      ctx.take 1022 := by
    rw [set_1022 _ (by simp; omega), List.take_append_of_le_length (by simp; omega),
      List.take_take, List.take_append_of_le_length (by omega)]
    exact c_str_terminated _ _ (fun hm => hnul (List.mem_of_mem_take hm))
  refine ⟨_, h, hc, ?_⟩
  simp only [hc, List.length_take]
  omega

theorem long_context_keeps_1022_bytes_witness :
    ∃ r, parse_cscope_line (zeros 8) blank
        (bytes "a.c" ++ 32 :: (bytes "main" ++ 32 :: (bytes "42" ++ 32 ::
          (List.replicate 1023 120 ++ zeros 1)))) = .ok r ∧
      c_str r.context = (List.replicate 1023 120).take 1022 ∧
      (c_str r.context).length = 1022 :=
  long_context_keeps_1022_bytes (zeros 8) blank (bytes "a.c") (bytes "main") (bytes "42")
    (List.replicate 1023 120) (zeros 1) (by decide) (by decide) (by decide)
    blank_file_length blank_sym_length (zeros_length 8) blank_context_length
    (not_mem_replicate 0 120 1023 (by decide))
    (by simp only [List.length_replicate]; omega) (le_of_eq (zeros_length 1).symm)

/-! ## Selection -/

theorem c_str_length_lt (a : List Nat) (ha : 0 ∈ a) : (c_str a).length < a.length := by
  unfold c_str
  induction a with
  | nil => simp at ha
  | cons x a ih =>
    by_cases hx : x = 0
    · simp [List.takeWhile_cons, hx]
    · have h2 : 0 ∈ a := by
        rcases List.mem_cons.mp ha with h | h
        · exact absurd h.symm hx
        · exact h
      have := ih h2
      simp [List.takeWhile_cons, hx]
      omega

theorem read_str_ok (a : List Nat) (ha : 0 ∈ a) : read_str a = .ok (c_str a) := by
  simp [read_str, ha]

/-- C3: with `entries` records in the session, `cscope_select_file` at a list
position outside `[0, entries)` asks for no navigation and leaves the state as
it is; at a position `k` inside it asks for the file `symdir + "/" + out[k].file`,
which the 2048-byte path buffer never cuts, at line `out[k].line`. -/
theorem select_file_navigates (cs : CscopeState) (index : Int)
    (hN : cs.entries = cs.out.length) (hdir : 0 ∈ cs.symdir)
    (hdirlen : cs.symdir.length = 1024)
    (hfiles : ∀ o ∈ cs.out, 0 ∈ o.file ∧ o.file.length = 1024) :
    ((index < 0 ∨ cs.entries ≤ index) → cscope_select_file cs index = .ok (cs, none)) ∧
    (∀ k (hk : k < cs.out.length), index = (k : Int) →
      cscope_select_file cs index =
        .ok (cs, some (cs.os, c_str cs.symdir ++ bytes "/" ++ c_str (cs.out[k]).file,
          (cs.out[k]).line))) := by
  constructor
  · intro h
    unfold cscope_select_file
    rcases h with h | h
    · simp [h]
    · simp [h]
  · intro k hk hidx
    subst hidx
    have hmem : cs.out[k] ∈ cs.out := List.getElem_mem _
    obtain ⟨h0, hlen⟩ := hfiles _ hmem
    have h1 := c_str_length_lt _ hdir
    have h2 := c_str_length_lt _ h0
    have hcond : ((k : Int) < 0 || decide ((k : Int) ≥ cs.entries)) = false := by
      simp [hN]
      omega
    unfold cscope_select_file
    rw [if_neg (by simp [hcond])]
    simp only [Int.toNat_ofNat, List.get?_eq_getElem?, List.getElem?_eq_getElem hk,
      read_str_ok _ hdir, read_str_ok _ h0, snprintf]
    rw [List.take_of_length_le]
    simp [bytes]
    omega

set_option maxRecDepth 100000 in
theorem select_file_navigates_witness :
    (((0 : Int) < 0 ∨ session_example.entries ≤ 0) →
      cscope_select_file session_example 0 = .ok (session_example, none)) ∧
    (∀ k (hk : k < session_example.out.length), (0 : Int) = (k : Int) →
      cscope_select_file session_example 0 =
        .ok (session_example, some (session_example.os,
          c_str session_example.symdir ++ bytes "/" ++ c_str (session_example.out[k]).file,
          (session_example.out[k]).line))) :=
  select_file_navigates session_example 0 (by decide) (by decide!) (by decide!) (by decide!)

set_option maxRecDepth 100000 in
/-- The selection of the specification's example: index directory `/idx`, record 0
with file `src/foo.c` and line 42. -/
theorem select_file_example :
    cscope_select_file session_example 0 =
      .ok (session_example, some (7, bytes "/idx/src/foo.c", 42)) ∧
    cscope_select_file session_example 1 = .ok (session_example, none) ∧
    cscope_select_file session_example (-1) = .ok (session_example, none) := by
  refine ⟨?_, ?_, ?_⟩ <;> decide!

/-! ## The command line -/

/-- C5 (the code at the failing input): with an index directory of 200 bytes the
command line that is built is the first 127 bytes of the text, all of them taken
by the fixed part and the directory: the `/cscope.out -L`, the operation code
and the symbol are lost. -/
theorem command_line_loses_arguments :
    cs_command (List.replicate 200 97) 1 (bytes "foo") =
      bytes "cscope -p8 -d -f " ++ List.replicate 110 97 ∧
    cs_command (List.replicate 200 97) 1 (bytes "foo") ≠
      command_text (List.replicate 200 97) 1 (bytes "foo") := by
  decide

/-- The command line of the specification's example. -/
theorem command_line_example :
    cs_command (bytes "/idx") 1 (bytes "foo") =
      bytes "cscope -p8 -d -f /idx/cscope.out -L1 foo" := by
  decide

/-- The command line reaches `popen` as built: `do_cscope_query` depends on
`popen` through its value at `cs_command` only. -/
theorem do_cscope_query_spawns_command (heap : Nat → Bool) (junk : List Nat)
    (popen popen' : List Nat → Option (List ReadEvent)) (dir : List Nat) (op : Int)
    (sym : List Nat) (h : popen (cs_command dir op sym) = popen' (cs_command dir op sym)) :
    do_cscope_query heap junk popen dir op sym = do_cscope_query heap junk popen' dir op sym := by
  unfold do_cscope_query
  simp only [h]

/-! ## Reading the output of the child -/

theorem memset_init :
    memset (List.replicate OUTBUF_WIN_SZ 1) 0 0 OUTBUF_WIN_SZ =
      .ok (List.replicate OUTBUF_WIN_SZ 0) := by
  unfold memset
  rw [if_pos (by simp only [List.length_replicate]; omega),
    List.drop_of_length_le (by simp only [List.length_replicate]; omega)]
  simp only [List.take_zero, List.nil_append, List.append_nil]

/-- Every pass through the growth step of the read loop stores outside the
block it has just obtained from `realloc`. -/
theorem read_loop_growth_faults (heap : Nat → Bool) (junk : List Nat) (ev : ReadEvent)
    (co : List ReadEvent) (outbuf : List Nat) (tlen nr_reads : Nat)
    (hfull : OUTBUF_WIN_SZ ≤ ev.data.length) (hfit : tlen + OUTBUF_WIN_SZ ≤ outbuf.length)
    (hheap : heap (nr_reads + 1) = true) :
    read_loop heap junk (ev :: co) outbuf tlen nr_reads =
      .error (.oob_write ((nr_reads + 1) * OUTBUF_WIN_SZ)) := by
  have hrc : (ev.data.take OUTBUF_WIN_SZ).length = OUTBUF_WIN_SZ := by
    simp only [List.length_take]
    omega
  unfold read_loop
  simp only [hrc, hheap]
  have h1 : ¬ outbuf.length < tlen + OUTBUF_WIN_SZ := by omega
  simp only [h1, if_false]
  have h2 : (OUTBUF_WIN_SZ == 0 || decide (OUTBUF_WIN_SZ < OUTBUF_WIN_SZ)) = false := by
    simp [OUTBUF_WIN_SZ]
  simp only [h2, Bool.false_and, Bool.false_eq_true, if_false, Bool.not_true]
  have h3 : ∀ b : List Nat, memset (b.take ((nr_reads + 1) * OUTBUF_WIN_SZ))
      ((nr_reads + 1) * OUTBUF_WIN_SZ) 0 OUTBUF_WIN_SZ =
        .error (.oob_write ((nr_reads + 1) * OUTBUF_WIN_SZ)) := by
    intro b
    unfold memset
    rw [if_neg]
    simp only [List.length_take, OUTBUF_WIN_SZ]
    omega
  simp only [h3]

/-- C4 (the code at the failing inputs): whenever the first read fills the window
of 1024 bytes, so that the child delivers at least 1024 bytes, `do_cscope_query`
does not return: after `realloc(outbuf, 2 * 1024)` it clears 1024 bytes from
offset `2 * 1024` on, outside the block. -/
theorem do_cscope_query_full_window_faults (heap : Nat → Bool) (junk : List Nat)
    (popen : List Nat → Option (List ReadEvent)) (dir : List Nat) (op : Int) (sym : List Nat)
    (ev : ReadEvent) (co : List ReadEvent) (h1 : heap 1 = true) (h2 : heap 2 = true)
    (hopen : popen (cs_command dir op sym) = some (ev :: co))
    (hfull : 1024 ≤ ev.data.length) :
    do_cscope_query heap junk popen dir op sym = .error (.oob_write 2048) := by
  unfold do_cscope_query
  simp only [h1, Bool.not_true, Bool.false_eq_true, if_false, memset_init, hopen]
  rw [read_loop_growth_faults heap junk ev co _ 0 1 hfull
    (by simp only [List.length_replicate]; omega) h2]
  rfl

theorem do_cscope_query_full_window_faults_witness :
    do_cscope_query (fun _ => true) (zeros 1024)
      (fun _ => some [⟨List.replicate 1024 97, false, false⟩, ⟨[], false, true⟩])
      (bytes "/idx") 1 (bytes "foo") = .error (.oob_write 2048) :=
  do_cscope_query_full_window_faults (fun _ => true) (zeros 1024)
    (fun _ => some [⟨List.replicate 1024 97, false, false⟩, ⟨[], false, true⟩])
    (bytes "/idx") 1 (bytes "foo") ⟨List.replicate 1024 97, false, false⟩ [⟨[], false, true⟩]
    rfl rfl rfl (by simp only [List.length_replicate]; omega)

set_option maxRecDepth 100000 in
/-- A child whose output fits one window: the bytes and their number are handed
back; no byte at all gives the error result. -/
theorem do_cscope_query_short_output :
    (do_cscope_query (fun _ => true) [] (fun _ => some [⟨bytes "a b 1 c\n", false, true⟩])
        (bytes "/idx") 1 (bytes "foo")).map (fun r => (r.ret, r.len, r.response.map (List.take 9)))
      = .ok (0, some 8, some (bytes "a b 1 c\n" ++ [0])) ∧
    (do_cscope_query (fun _ => true) [] (fun _ => some [⟨[], false, true⟩])
        (bytes "/idx") 1 (bytes "foo")).map (fun r => r.ret) = .ok (-1) := by
  refine ⟨?_, ?_⟩ <;> decide!

/-! ## Splitting the output into lines -/

theorem skip_delims_newlines (g : Nat) (x : List Nat) :
    skip_delims (List.replicate g 10 ++ x) = skip_delims x := by
  induction g with
  | zero => simp
  | succ g ih => simp [List.replicate_succ, skip_delims, ih]

theorem skip_delims_stop (c : Nat) (x : List Nat) (hc : c ≠ 10) :
    skip_delims (c :: x) = .ok (c :: x) := by
  simp [skip_delims, hc]

theorem split_token_newline (l x : List Nat) (h10 : 10 ∉ l) (h0 : 0 ∉ l) :
    split_token (l ++ 10 :: x) = .ok (l ++ 0 :: x, x) := by
  induction l with
  | nil => simp [split_token]
  | cons c l ih =>
    have hc1 : c ≠ 10 := fun h => h10 (by simp [h])
    have hc0 : c ≠ 0 := fun h => h0 (by simp [h])
    have := ih (fun h => h10 (by simp [h])) (fun h => h0 (by simp [h]))
    simp [split_token, hc1, hc0, this]

theorem split_token_nul (l x : List Nat) (h10 : 10 ∉ l) (h0 : 0 ∉ l) :
    split_token (l ++ 0 :: x) = .ok (l ++ 0 :: x, 0 :: x) := by
  induction l with
  | nil => simp [split_token]
  | cons c l ih =>
    have hc1 : c ≠ 10 := fun h => h10 (by simp [h])
    have hc0 : c ≠ 0 := fun h => h0 (by simp [h])
    have := ih (fun h => h10 (by simp [h])) (fun h => h0 (by simp [h]))
    simp [split_token, hc1, hc0, this]

theorem strtok_end (m : Nat) (pad : List Nat) :
    strtok (text [] m pad) = .ok (none, 0 :: pad) := by
  simp [strtok, text, body, skip_delims_newlines, skip_delims_stop]

theorem line_ok_ne_nil (l : List Nat) (hl : line_ok l) : ∃ c t, l = c :: t ∧ c ≠ 10 ∧ c ≠ 0 := by
  cases l with
  | nil => simp [line_ok] at hl
  | cons c t =>
    refine ⟨c, t, rfl, fun h => hl.2.1 (by simp [h]), fun h => hl.2.2 (by simp [h])⟩

theorem strtok_newline (g : Nat) (l x : List Nat) (hl : line_ok l) :
    strtok (List.replicate g 10 ++ (l ++ 10 :: x)) = .ok (some (l ++ 0 :: x), x) := by
  obtain ⟨c, t, rfl, hc1, hc0⟩ := line_ok_ne_nil l hl
  have h := split_token_newline (c :: t) x hl.2.1 hl.2.2
  rw [List.cons_append] at h
  simp only [strtok, skip_delims_newlines, List.cons_append, skip_delims_stop _ _ hc1, h]
  simp [hc0]

theorem strtok_nul (g : Nat) (l x : List Nat) (hl : line_ok l) :
    strtok (List.replicate g 10 ++ (l ++ 0 :: x)) = .ok (some (l ++ 0 :: x), 0 :: x) := by
  obtain ⟨c, t, rfl, hc1, hc0⟩ := line_ok_ne_nil l hl
  have h := split_token_nul (c :: t) x hl.2.1 hl.2.2
  rw [List.cons_append] at h
  simp only [strtok, skip_delims_newlines, List.cons_append, skip_delims_stop _ _ hc1, h]
  simp [hc0]

/-- What `strtok` returns on a buffer that starts with a line: the line, and the
saved pointer behind the byte that ended it. -/
theorem strtok_text (g : Nat) (l : List Nat) (ls : List (Nat × List Nat)) (m : Nat)
    (pad : List Nat) (hl : line_ok l) :
    strtok (text ((g, l) :: ls) m pad) =
      .ok (some (l ++ 0 :: behind ls m pad),
        if ls.isEmpty then text [] (m - 1) pad else text ls m pad) := by
  cases ls with
  | cons p ls =>
    have := strtok_newline g l (text (p :: ls) m pad) hl
    simpa [text, body, sep, behind] using this
  | nil =>
    cases m with
    | zero =>
      have := strtok_nul g l pad hl
      simpa [text, body, sep, behind] using this
    | succ m =>
      have := strtok_newline g l (text [] m pad) hl
      simpa [text, body, sep, behind, List.replicate_succ] using this

theorem first_space (l : List Nat) (h : 0 < l.count 32) :
    ∃ a b, l = a ++ 32 :: b ∧ 32 ∉ a ∧ b.count 32 + 1 = l.count 32 := by
  induction l with
  | nil => simp at h
  | cons c l ih =>
    by_cases hc : c = 32
    · subst hc
      exact ⟨[], l, rfl, by simp, by simp⟩
    · have hcount : (c :: l).count 32 = l.count 32 := by
        simp [List.count_cons, hc]
      rw [hcount] at h
      obtain ⟨a, b, hab, ha, hb⟩ := ih h
      refine ⟨c :: a, b, by simp [hab], ?_, by rw [hcount]; exact hb⟩
      intro hm
      rcases List.mem_cons.mp hm with h1 | h1
      · exact hc h1.symm
      · exact ha h1

/-- A line with three spaces is a file token, a scope token, a line-number token
and a context. -/
theorem three_spaces (l : List Nat) (h : 3 ≤ l.count 32) :
    ∃ f s d c, l = f ++ 32 :: (s ++ 32 :: (d ++ 32 :: c)) ∧ 32 ∉ f ∧ 32 ∉ s ∧ 32 ∉ d := by
  obtain ⟨f, r1, h1, hf, c1⟩ := first_space l (by omega)
  obtain ⟨s, r2, h2, hs, c2⟩ := first_space r1 (by omega)
  obtain ⟨d, r3, h3, hd, _⟩ := first_space r2 (by omega)
  exact ⟨f, s, d, r3, by rw [h1, h2, h3], hf, hs, hd⟩

theorem parse_line_ok (lstr0 : Nat → List Nat) (out0 : Nat → CscopeOutput)
    (hsz : sized lstr0 out0) (i : Nat) (l x : List Nat) (hl : line_ok l)
    (hx : 1023 ≤ x.length) :
    parse_cscope_line (lstr0 i) (out0 i) (l ++ 0 :: x) =
      .ok (parsed lstr0 out0 i (l ++ 0 :: x)) := by
  obtain ⟨f, s, d, c, hdec, hf, hs, hd⟩ := three_spaces l hl.1
  obtain ⟨h1, h2, h3, h4⟩ := hsz i
  have hmem : l ++ 0 :: x = f ++ 32 :: (s ++ 32 :: (d ++ 32 :: (c ++ 0 :: x))) := by
    rw [hdec]
    simp
  have := parse_cscope_line_eq (lstr0 i) (out0 i) f s d (c ++ 0 :: x) hf hs hd h2 h3 h1 h4
    (by simp; omega)
  unfold parsed
  rw [hmem, this]

theorem behind_length (ls : List (Nat × List Nat)) (m : Nat) (pad : List Nat) :
    pad.length ≤ (behind ls m pad).length := by
  unfold behind text
  split
  · simp [body]
  · simp
    omega

theorem body_length (ls : List (Nat × List Nat)) (m : Nat)
    (hls : ∀ p ∈ ls, line_ok p.2) : ls.length ≤ (body ls m).length := by
  induction ls with
  | nil => simp
  | cons p ls ih =>
    obtain ⟨g, l⟩ := p
    have h1 := ih (fun q hq => hls q (by simp [hq]))
    obtain ⟨c, t, hc, _, _⟩ := line_ok_ne_nil l (hls (g, l) (by simp))
    subst hc
    simp [body]
    omega

theorem set_next (done : List CscopeOutput) (out0 : Nat → CscopeOutput) (i c : Nat)
    (r : CscopeOutput) (hi : done.length = i) :
    (done ++ (List.range' i (c + 1)).map out0).set i r =
      (done ++ [r]) ++ (List.range' (i + 1) c).map out0 := by
  subst hi
  rw [List.set_append_right _ _ (le_refl _)]
  simp [List.range'_succ]

theorem get_next (done : List CscopeOutput) (out0 : Nat → CscopeOutput) (i c : Nat)
    (hi : done.length = i) :
    (done ++ (List.range' i (c + 1)).map out0).get? i = some (out0 i) := by
  subst hi
  rw [List.get?_eq_getElem?, List.getElem?_append_right (le_refl _)]
  simp [List.range'_succ]

theorem get_past (done : List CscopeOutput) (out0 : Nat → CscopeOutput) (i : Nat)
    (hi : done.length = i) :
    (done ++ (List.range' i 0).map out0).get? i = none := by
  subst hi
  simp

/-- The loop of `parse_cscope_output` on a buffer of lines: it stores the parse
of each line in turn, without looking at the size of the array, and stops with
the store that falls outside the array if there is one. -/
theorem tokenize_and_parse_text (lstr0 : Nat → List Nat) (out0 : Nat → CscopeOutput)
    (hsz : sized lstr0 out0) (pad : List Nat) (hpad : 1023 ≤ pad.length) :
    ∀ (ls : List (Nat × List Nat)) (m fuel i c : Nat) (done : List CscopeOutput),
      (∀ p ∈ ls, line_ok p.2) → ls.length ≤ fuel → done.length = i →
      tokenize_and_parse lstr0 fuel (text ls m pad) i (done ++ (List.range' i c).map out0) =
        if ls.length ≤ c then
          .ok (done ++ stored lstr0 out0 i ls m pad ++
            (List.range' (i + ls.length) (c - ls.length)).map out0)
        else .error (.oob_write (i + c)) := by
  intro ls
  induction ls with
  | nil =>
    intro m fuel i c done _ _ _
    simp [tokenize_and_parse, strtok_end, parse_loop, stored]
  | cons p ls ih =>
    intro m fuel i c done hls hfuel hi
    obtain ⟨g, l⟩ := p
    have hl : line_ok l := hls (g, l) (by simp)
    have hls2 : ∀ q ∈ ls, line_ok q.2 := fun q hq => hls q (by simp [hq])
    obtain ⟨fuel, rfl⟩ : ∃ f, fuel = f + 1 := ⟨fuel - 1, by simp at hfuel; omega⟩
    have hfuel2 : ls.length ≤ fuel := by simp at hfuel; omega
    unfold tokenize_and_parse
    rw [strtok_text g l ls m pad hl]
    simp only
    cases c with
    | zero =>
      have hneg : ¬ ((g, l) :: ls).length ≤ 0 := by simp
      rw [if_neg hneg]
      simp only [parse_loop, get_past done out0 i hi, Nat.add_zero]
    | succ c =>
      have hparse := parse_line_ok lstr0 out0 hsz i l (behind ls m pad) hl
        (le_trans hpad (behind_length ls m pad))
      have hih := ih (if ls.isEmpty then m - 1 else m) fuel (i + 1) c
        (done ++ [parsed lstr0 out0 i (l ++ 0 :: behind ls m pad)]) hls2 hfuel2
        (by simp [hi])
      have hsave : (if ls.isEmpty then text [] (m - 1) pad else text ls m pad) =
          text ls (if ls.isEmpty then m - 1 else m) pad := by
        cases ls <;> simp
      have hst : stored lstr0 out0 (i + 1) ls (if ls.isEmpty then m - 1 else m) pad =
          stored lstr0 out0 (i + 1) ls m pad := by
        cases ls <;> simp [stored]
      unfold tokenize_and_parse at hih
      rw [hst, ← hsave] at hih
      simp only [parse_loop, get_next done out0 i c hi, hparse,
        set_next done out0 i c _ hi]
      rw [hih]
      by_cases hc : ls.length ≤ c
      · simp [hc, stored, Nat.add_assoc, Nat.add_comm 1]
      · simp [hc]
        omega

/-- The function `parse_cscope_output` on a buffer of lines and an array of `n`
records. -/
theorem parse_cscope_output_text (lstr0 : Nat → List Nat) (out0 : Nat → CscopeOutput)
    (hsz : sized lstr0 out0) (pad : List Nat) (hpad : 1023 ≤ pad.length)
    (ls : List (Nat × List Nat)) (m n : Nat) (hls : ∀ p ∈ ls, line_ok p.2) :
    parse_cscope_output true lstr0 out0 (text ls m pad) n =
      if ls.length ≤ n then
        .ok (some (stored lstr0 out0 0 ls m pad ++
          (List.range' ls.length (n - ls.length)).map out0))
      else .error (.oob_write n) := by
  have hfuel : ls.length ≤ (text ls m pad).length + 1 := by
    have := body_length ls m hls
    simp [text]
    omega
  have key := tokenize_and_parse_text lstr0 out0 hsz pad hpad ls m
    ((text ls m pad).length + 1) 0 n [] hls hfuel rfl
  simp only [List.nil_append, Nat.zero_add] at key
  unfold tokenize_and_parse at key
  unfold parse_cscope_output
  rw [List.range_eq_range']
  simp only [Bool.not_true, Bool.false_eq_true, if_false]
  cases hst : strtok (text ls m pad) with
  | error e =>
    rw [hst] at key
    simp only at key ⊢
    by_cases h : ls.length ≤ n
    · simp [h] at key
    · simp only [h, if_false] at key ⊢
      injection key with he
      rw [he]
  | ok p =>
    obtain ⟨tok, save⟩ := p
    rw [hst] at key
    simp only at key ⊢
    rw [key]
    by_cases h : ls.length ≤ n <;> simp [h]

theorem stored_length (lstr0 : Nat → List Nat) (out0 : Nat → CscopeOutput)
    (ls : List (Nat × List Nat)) (m : Nat) (pad : List Nat) :
    ∀ i, (stored lstr0 out0 i ls m pad).length = ls.length := by
  induction ls with
  | nil => intro i; rfl
  | cons p ls ih => intro i; obtain ⟨g, l⟩ := p; simp [stored, ih]

theorem stored_get (lstr0 : Nat → List Nat) (out0 : Nat → CscopeOutput)
    (m : Nat) (pad : List Nat) :
    ∀ (ls : List (Nat × List Nat)) (i k : Nat), k < ls.length →
      (stored lstr0 out0 i ls m pad).get? k =
        some (parsed lstr0 out0 (i + k) (token ls m pad k)) := by
  intro ls
  induction ls with
  | nil => intro i k hk; simp at hk
  | cons p ls ih =>
    intro i k hk
    obtain ⟨g, l⟩ := p
    cases k with
    | zero => simp [stored, token]
    | succ k =>
      have := ih (i + 1) k (by simpa using hk)
      simp only [List.get?_eq_getElem?] at this
      simp [stored, token, this, Nat.add_assoc, Nat.add_comm 1]

theorem token_line_ok (ls : List (Nat × List Nat)) (k : Nat) (hk : k < ls.length)
    (hls : ∀ p ∈ ls, line_ok p.2) : line_ok (ls.getD k (0, [])).2 := by
  have : ls.getD k (0, []) = ls[k] := by
    simp [List.getD_eq_getElem?_getD, List.getElem?_eq_getElem hk]
  rw [this]
  exact hls _ (List.getElem_mem _)

theorem newlines_of_body (ls : List (Nat × List Nat)) (m : Nat) :
    ls.length + m ≤ (body ls m).count 10 + 1 := by
  induction ls with
  | nil => simp [body]
  | cons p ls ih =>
    obtain ⟨g, l⟩ := p
    cases ls with
    | nil => simp [body, sep]; omega
    | cons q ls =>
      simp only [body, sep, List.count_append, List.length_cons] at ih ⊢
      simp at ih ⊢
      omega

/-! ## The recursion bound of the loop is never reached -/

theorem scan_field_fault (limit : Nat) :
    ∀ (line : List Nat) (i : Nat) (buf : List Nat) (e : Fault),
      scan_field limit line i buf = .error e → e = .oob_read := by
  intro line
  induction line with
  | nil => intro i buf e h; simp [scan_field] at h; exact h.symm
  | cons c line ih =>
    intro i buf e h
    unfold scan_field at h
    split at h
    · split at h
      · exact ih _ _ _ h
      · exact ih _ _ _ h
    · cases h

theorem scan_context_fault :
    ∀ (line : List Nat) (i : Nat) (buf : List Nat) (e : Fault),
      scan_context line i buf = .error e → e = .oob_read := by
  intro line
  induction line with
  | nil => intro i buf e h; simp [scan_context] at h; exact h.symm
  | cons c line ih =>
    intro i buf e h
    unfold scan_context at h
    split at h
    · split at h
      · cases h
      · exact ih _ _ _ h
    · cases h

theorem parse_cscope_line_fault (lstr0 : List Nat) (out0 : CscopeOutput) (line : List Nat)
    (e : Fault) (h : parse_cscope_line lstr0 out0 line = .error e) : e = .oob_read := by
  unfold parse_cscope_line at h
  split at h
  · rename_i e1 h1
    cases h
    exact scan_field_fault _ _ _ _ _ h1
  · try dsimp only at h
    split at h
    · rename_i e1 h1
      cases h
      exact scan_field_fault _ _ _ _ _ h1
    · try dsimp only at h
      split at h
      · rename_i e1 h1
        cases h
        exact scan_field_fault _ _ _ _ _ h1
      · try dsimp only at h
        split at h
        · rename_i e1 h1
          cases h
          exact scan_context_fault _ _ _ _ h1
        · cases h

theorem skip_delims_result :
    ∀ (s : List Nat),
      (∀ e, skip_delims s = .error e → e = .oob_read) ∧
      (∀ t, skip_delims s = .ok t → t.length ≤ s.length) := by
  intro s
  induction s with
  | nil =>
    refine ⟨fun e h => ?_, fun t h => ?_⟩
    · simp [skip_delims] at h; exact h.symm
    · simp [skip_delims] at h
  | cons c s ih =>
    refine ⟨fun e h => ?_, fun t h => ?_⟩
    · unfold skip_delims at h
      split at h
      · exact ih.1 e h
      · cases h
    · unfold skip_delims at h
      split at h
      · have := ih.2 t h
        simp
        omega
      · cases h
        exact le_refl _

theorem split_token_result :
    ∀ (s : List Nat),
      (∀ e, split_token s = .error e → e = .oob_read) ∧
      (∀ tok save, split_token s = .ok (tok, save) →
        save.length ≤ s.length ∧ (s.head? ≠ some 0 → save.length < s.length)) := by
  intro s
  induction s with
  | nil =>
    refine ⟨fun e h => ?_, fun tok save h => ?_⟩
    · simp [split_token] at h; exact h.symm
    · simp [split_token] at h
  | cons c s ih =>
    refine ⟨fun e h => ?_, fun tok save h => ?_⟩
    · unfold split_token at h
      split at h
      · cases h
      · split at h
        · cases h
        · split at h
          · rename_i e1 h1
            cases h
            exact ih.1 _ h1
          · cases h
    · unfold split_token at h
      split at h
      · cases h
        simp
      · split at h
        · rename_i h0
          cases h
          simp at h0
          simp [h0]
        · split at h
          · cases h
          · rename_i tok1 save1 h1
            cases h
            have := (ih.2 _ _ h1).1
            simp
            omega

theorem strtok_result (s : List Nat) :
    (∀ e, strtok s = .error e → e = .oob_read) ∧
    (∀ tok save, strtok s = .ok (some tok, save) → save.length < s.length) := by
  refine ⟨fun e h => ?_, fun tok save h => ?_⟩
  · unfold strtok at h
    split at h
    · rename_i e1 h1
      cases h
      exact (skip_delims_result s).1 _ h1
    · cases h
      rfl
    · split at h
      · cases h
      · split at h
        · rename_i e1 h1
          cases h
          exact (split_token_result _).1 _ h1
        · cases h
  · unfold strtok at h
    split at h
    · cases h
    · cases h
    · rename_i c t h1
      split at h
      · cases h
      · rename_i hc
        split at h
        · cases h
        · rename_i tok1 save1 h2
          cases h
          have h3 := (split_token_result _).2 _ _ h2
          have h4 := (skip_delims_result s).2 _ h1
          have h5 : save.length < (c :: t).length := by
            apply h3.2
            simp at hc
            simp [hc]
          omega

theorem parse_loop_has_fuel (lstr0 : Nat → List Nat) :
    ∀ (fuel : Nat) (tok : Option (List Nat)) (save : List Nat) (i : Nat)
      (out : List CscopeOutput), save.length < fuel →
      parse_loop lstr0 fuel tok save i out ≠ .error .no_fuel := by
  intro fuel
  induction fuel with
  | zero => intro tok save i out h; omega
  | succ fuel ih =>
    intro tok save i out hlen
    cases tok with
    | none => simp [parse_loop]
    | some tok =>
      unfold parse_loop
      split
      · simp
      · split
        · rename_i e h1
          have := parse_cscope_line_fault _ _ _ _ h1
          subst this
          simp
        · split
          · rename_i e h1
            have := (strtok_result save).1 _ h1
            subst this
            simp
          · rename_i tok2 save2 h1
            cases tok2 with
            | none => cases fuel <;> simp [parse_loop]
            | some tok2 =>
              have := (strtok_result save).2 _ _ h1
              exact ih _ _ _ _ (by omega)

/-- The function `parse_cscope_output` returns or stops at an undefined memory
access, on every buffer: the bound on the iterations of its loop is never what
stops it. -/
theorem parse_cscope_output_has_fuel (heap : Bool) (lstr0 : Nat → List Nat)
    (out0 : Nat → CscopeOutput) (output : List Nat) (nr_entries : Nat) :
    parse_cscope_output heap lstr0 out0 output nr_entries ≠ .error .no_fuel := by
  unfold parse_cscope_output
  split
  · simp
  · split
    · rename_i e h1
      have := (strtok_result output).1 _ h1
      subst this
      simp
    · rename_i tok save h1
      split
      · rename_i e h2
        intro h
        cases h
        cases tok with
        | none => simp [parse_loop] at h2
        | some tok =>
          have := (strtok_result output).2 _ _ h1
          exact parse_loop_has_fuel lstr0 _ _ _ _ _ (by omega) h2
      · simp

/-! ## Lines in the block that `do_cscope_query` returns -/

theorem parse_line_over_read (lstr0 : Nat → List Nat) (out0 : Nat → CscopeOutput)
    (hsz : sized lstr0 out0) (i : Nat) (l x : List Nat) (hl : line_ok l)
    (hx : (l ++ 0 :: x).length ≤ 1024) :
    parse_cscope_line (lstr0 i) (out0 i) (l ++ 0 :: x) = .error .oob_read := by
  obtain ⟨f, s, d, c, hdec, hf, hs, hd⟩ := three_spaces l hl.1
  obtain ⟨h1, h2, h3, _⟩ := hsz i
  have hmem : l ++ 0 :: x = f ++ 32 :: (s ++ 32 :: (d ++ 32 :: (c ++ 0 :: x))) := by
    rw [hdec]
    simp
  rw [hmem]
  refine parse_cscope_line_over_read (lstr0 i) (out0 i) f s d (c ++ 0 :: x) hf hs hd h2 h3 h1 ?_
  rw [hdec] at hx
  simp at hx ⊢
  omega

theorem token_within_text (g : Nat) (l : List Nat) (ls : List (Nat × List Nat)) (m : Nat)
    (pad : List Nat) :
    (l ++ 0 :: behind ls m pad).length ≤ (text ((g, l) :: ls) m pad).length := by
  cases ls with
  | nil =>
    simp [behind, text, body, sep]
    omega
  | cons p ls =>
    simp [behind, text, body, sep]

/-! ## Counting the tokens -/

theorem skip_delims_count :
    ∀ (s t : List Nat), skip_delims s = .ok t →
      count_tokens false s = count_tokens false t ∧ ∃ c t', t = c :: t' ∧ c ≠ 10 := by
  intro s
  induction s with
  | nil => intro t h; simp [skip_delims] at h
  | cons c s ih =>
    intro t h
    unfold skip_delims at h
    split at h
    · rename_i hc
      have hc' : c = 10 := by simpa using hc
      obtain ⟨h1, h2⟩ := ih t h
      refine ⟨?_, h2⟩
      rw [← h1]
      simp [count_tokens, hc']
    · rename_i hc
      cases h
      exact ⟨rfl, c, s, rfl, by simpa using hc⟩

theorem split_token_count :
    ∀ (s tok save : List Nat), split_token s = .ok (tok, save) →
      count_tokens true s = count_tokens false save := by
  intro s
  induction s with
  | nil => intro tok save h; simp [split_token] at h
  | cons c s ih =>
    intro tok save h
    unfold split_token at h
    split at h
    · rename_i hc
      cases h
      simp [count_tokens, hc]
    · rename_i hc
      split at h
      · rename_i h0
        cases h
        have h0' : c = 0 := by simpa using h0
        simp [count_tokens, h0']
      · rename_i h0
        split at h
        · cases h
        · rename_i tok1 save1 h1
          cases h
          have := ih _ _ h1
          simp [count_tokens, hc, h0, this]

/-- Each token that `strtok` returns is one of the tokens counted, and `NULL` is
returned when none is left. -/
theorem strtok_count (s : List Nat) (tok : Option (List Nat)) (save : List Nat)
    (h : strtok s = .ok (tok, save)) : count_tokens false s = tokens_left tok save := by
  unfold strtok at h
  split at h
  · cases h
  · cases h
  · rename_i c t h1
    obtain ⟨hcount, _, _, hct, hc10⟩ := skip_delims_count s _ h1
    cases hct
    split at h
    · rename_i hc0
      cases h
      have hc0' : c = 0 := by simpa using hc0
      rw [hcount]
      simp [count_tokens, tokens_left, hc0']
    · rename_i hc0
      split at h
      · cases h
      · rename_i tok1 save1 h2
        cases h
        have h3 : split_token (c :: t) = match split_token t with
            | .error e => .error e
            | .ok (tok, save) => .ok (c :: tok, save) := by
          rw [split_token]
          simp [hc10, hc0]
        rw [h3] at h2
        split at h2
        · cases h2
        · rename_i tok2 save2 h4
          cases h2
          have h5 := split_token_count t _ _ h4
          rw [hcount]
          simp [count_tokens, tokens_left, hc10, hc0, h5]

theorem tokens_left_next (save : List Nat) (tok tok' : Option (List Nat)) (save' : List Nat)
    (htok : tok.isSome) (h : strtok save = .ok (tok', save')) :
    tokens_left tok save = 1 + tokens_left tok' save' := by
  cases tok with
  | none => simp at htok
  | some t => simp [tokens_left, strtok_count save tok' save' h]

/-- A store of the loop outside the array is the store at the index that is the
size of the array, and there are then more tokens than the array has room for. -/
theorem parse_loop_store_outside (lstr0 : Nat → List Nat) :
    ∀ (fuel : Nat) (tok : Option (List Nat)) (save : List Nat) (i : Nat)
      (out : List CscopeOutput) (j : Nat), i ≤ out.length →
      parse_loop lstr0 fuel tok save i out = .error (.oob_write j) →
      j = out.length ∧ out.length < i + tokens_left tok save := by
  intro fuel
  induction fuel with
  | zero =>
    intro tok save i out j _ h
    cases tok <;> simp [parse_loop] at h
  | succ fuel ih =>
    intro tok save i out j hi h
    cases tok with
    | none => simp [parse_loop] at h
    | some tok =>
      unfold parse_loop at h
      split at h
      · rename_i hget
        cases h
        have hlen : out.length ≤ i := by
          rw [List.get?_eq_getElem?] at hget
          exact List.getElem?_eq_none_iff.mp hget
        refine ⟨by omega, ?_⟩
        simp [tokens_left]
        omega
      · rename_i o hget
        have hlt : i < out.length := by
          rw [List.get?_eq_getElem?] at hget
          exact (List.getElem?_eq_some_iff.mp hget).1
        split at h
        · rename_i e h1
          have := parse_cscope_line_fault _ _ _ _ h1
          subst this
          cases h
        · split at h
          · rename_i e h1
            have := (strtok_result save).1 _ h1
            subst this
            cases h
          · rename_i tok2 save2 h1
            have := ih tok2 save2 (i + 1) _ j (by simp; omega) h
            rw [tokens_left_next save (some tok) tok2 save2 rfl h1]
            simp at this
            omega

/-- When the loop returns, the array had room for every token. -/
theorem parse_loop_returns (lstr0 : Nat → List Nat) :
    ∀ (fuel : Nat) (tok : Option (List Nat)) (save : List Nat) (i : Nat)
      (out out' : List CscopeOutput), i ≤ out.length →
      parse_loop lstr0 fuel tok save i out = .ok out' →
      out'.length = out.length ∧ i + tokens_left tok save ≤ out.length := by
  intro fuel
  induction fuel with
  | zero =>
    intro tok save i out out' hi h
    cases tok with
    | none =>
      simp [parse_loop] at h
      subst h
      simp [tokens_left, hi]
    | some tok => simp [parse_loop] at h
  | succ fuel ih =>
    intro tok save i out out' hi h
    cases tok with
    | none =>
      simp [parse_loop] at h
      subst h
      simp [tokens_left, hi]
    | some tok =>
      unfold parse_loop at h
      split at h
      · cases h
      · rename_i o hget
        have hlt : i < out.length := by
          rw [List.get?_eq_getElem?] at hget
          exact (List.getElem?_eq_some_iff.mp hget).1
        split at h
        · cases h
        · split at h
          · cases h
          · rename_i tok2 save2 h1
            have := ih tok2 save2 (i + 1) _ out' (by simp; omega) h
            rw [tokens_left_next save (some tok) tok2 save2 rfl h1]
            simp at this
            omega

theorem count_newline_pos (cap : List Nat) (hne : cap ≠ [])
    (hlast : ∀ x, cap.getLast? = some x → x = 10) : 1 ≤ cap.count 10 := by
  have hmem : cap.getLast hne ∈ cap := List.getLast_mem hne
  have h10 : cap.getLast hne = 10 := hlast _ (List.getLast?_eq_getLast _ hne)
  rw [h10] at hmem
  exact List.count_pos_iff.mpr hmem

theorem count_tokens_false_cons (c : Nat) (s : List Nat) :
    count_tokens false (c :: s) =
      if c = 10 then count_tokens false s else if c = 0 then 0 else 1 + count_tokens true s := by
  simp [count_tokens]

theorem count_tokens_true_cons (c : Nat) (s : List Nat) :
    count_tokens true (c :: s) =
      if c = 10 then count_tokens false s else if c = 0 then 0 else count_tokens true s := by
  simp [count_tokens]

/-- A captured output that is empty or ends with a newline holds no more tokens
than newlines. -/
theorem count_tokens_le_newlines (pad : List Nat) :
    ∀ (cap : List Nat), (∀ x, cap.getLast? = some x → x = 10) →
      count_tokens false (cap ++ 0 :: pad) ≤ cap.count 10 ∧
      (cap ≠ [] → count_tokens true (cap ++ 0 :: pad) + 1 ≤ cap.count 10) := by
  intro cap
  induction cap with
  | nil => intro _; simp [count_tokens]
  | cons c cap ih =>
    intro hlast
    have hlast' : ∀ x, cap.getLast? = some x → x = 10 := by
      intro x hx
      cases cap with
      | nil => simp at hx
      | cons d cap => exact hlast x (by simpa [List.getLast?_cons_cons] using hx)
    have hcap : c ≠ 10 → cap ≠ [] := by
      intro hc hnil
      subst hnil
      exact hc (hlast c (by simp))
    obtain ⟨ih1, ih2⟩ := ih hlast'
    have hpos := count_newline_pos (c :: cap) (by simp) hlast
    rw [List.cons_append, count_tokens_false_cons, count_tokens_true_cons]
    by_cases hc : c = 10
    · have hcount : (c :: cap).count 10 = cap.count 10 + 1 := by
        subst hc
        simp
      rw [if_pos hc, if_pos hc, hcount]
      exact ⟨by omega, fun _ => by omega⟩
    · have hcount : (c :: cap).count 10 = cap.count 10 := by
        rw [List.count_cons_of_ne (fun h => hc h.symm)]
      rw [if_neg hc, if_neg hc]
      by_cases h0 : c = 0
      · rw [if_pos h0, if_pos h0]
        exact ⟨by omega, fun _ => by omega⟩
      · have := ih2 (hcap hc)
        rw [if_neg h0, if_neg h0, hcount]
        exact ⟨by omega, fun _ => by omega⟩

theorem parse_cscope_output_store_outside (heap : Bool) (lstr0 : Nat → List Nat)
    (out0 : Nat → CscopeOutput) (output : List Nat) (n j : Nat)
    (h : parse_cscope_output heap lstr0 out0 output n = .error (.oob_write j)) :
    j = n ∧ n < count_tokens false output := by
  unfold parse_cscope_output at h
  split at h
  · cases h
  · split at h
    · rename_i e h1
      have := (strtok_result output).1 _ h1
      subst this
      cases h
    · rename_i tok save h1
      split at h
      · rename_i e h2
        cases h
        have := parse_loop_store_outside lstr0 _ tok save 0 _ j (Nat.zero_le _) h2
        simp only [List.length_map, List.length_range, Nat.zero_add] at this
        rw [strtok_count output tok save h1]
        exact this
      · cases h

theorem parse_cscope_output_returns (heap : Bool) (lstr0 : Nat → List Nat)
    (out0 : Nat → CscopeOutput) (output : List Nat) (n : Nat) (recs : List CscopeOutput)
    (h : parse_cscope_output heap lstr0 out0 output n = .ok (some recs)) :
    recs.length = n ∧ count_tokens false output ≤ n := by
  unfold parse_cscope_output at h
  split at h
  · cases h
  · split at h
    · cases h
    · rename_i tok save h1
      split at h
      · cases h
      · rename_i out h2
        cases h
        have := parse_loop_returns lstr0 _ tok save 0 _ recs (Nat.zero_le _) h2
        simp only [List.length_map, List.length_range, Nat.zero_add] at this
        rw [strtok_count output tok save h1]
        exact this

/-! ## Claims about `parse_cscope_output` -/

/-- When 1023 bytes can be read behind the NUL of the output: on a buffer that
holds N well-formed lines separated by newlines, `parse_cscope_output(output, N)`
returns N records, and record `k` is the parse of the `k`-th line; the empty
tokens between adjacent newlines (in front of the first line, between two lines,
behind the last one) give no record. -/
theorem parse_cscope_output_in_order (lstr0 : Nat → List Nat) (out0 : Nat → CscopeOutput)
    (ls : List (Nat × List Nat)) (m : Nat) (pad : List Nat)
    (hsz : sized lstr0 out0) (hls : ∀ p ∈ ls, line_ok p.2) (hpad : 1023 ≤ pad.length) :
    ∃ recs, parse_cscope_output true lstr0 out0 (text ls m pad) ls.length = .ok (some recs) ∧
      recs.length = ls.length ∧
      ∀ k, k < ls.length → ∃ r, recs.get? k = some r ∧
        parse_cscope_line (lstr0 k) (out0 k) (token ls m pad k) = .ok r := by
  have h := parse_cscope_output_text lstr0 out0 hsz pad hpad ls m ls.length hls
  simp only [le_refl, if_true, Nat.sub_self, List.range'_zero, List.map_nil,
    List.append_nil] at h
  refine ⟨_, h, stored_length lstr0 out0 ls m pad 0, ?_⟩
  intro k hk
  refine ⟨parsed lstr0 out0 k (token ls m pad k), ?_, ?_⟩
  · rw [stored_get lstr0 out0 m pad ls 0 k hk, Nat.zero_add]
  · exact parse_line_ok lstr0 out0 hsz k _ _ (token_line_ok ls k hk hls)
      (le_trans hpad (behind_length _ m pad))

theorem sized_blank : sized (fun _ => zeros 8) (fun _ => blank) :=
  fun _ => ⟨zeros_length 8, blank_file_length, blank_sym_length, blank_context_length⟩

theorem parse_cscope_output_in_order_witness :
    ∃ recs, parse_cscope_output true (fun _ => zeros 8) (fun _ => blank)
        (text [(1, bytes "a.c f 1 x"), (2, bytes "b.c g 22 y z")] 1 (zeros 1023))
        [(1, bytes "a.c f 1 x"), (2, bytes "b.c g 22 y z")].length = .ok (some recs) ∧
      recs.length = [(1, bytes "a.c f 1 x"), (2, bytes "b.c g 22 y z")].length ∧
      ∀ k, k < [(1, bytes "a.c f 1 x"), (2, bytes "b.c g 22 y z")].length →
        ∃ r, recs.get? k = some r ∧
          parse_cscope_line ((fun _ => zeros 8) k) ((fun _ => blank) k)
            (token [(1, bytes "a.c f 1 x"), (2, bytes "b.c g 22 y z")] 1 (zeros 1023) k) =
              .ok r :=
  parse_cscope_output_in_order (fun _ => zeros 8) (fun _ => blank)
    [(1, bytes "a.c f 1 x"), (2, bytes "b.c g 22 y z")] 1 (zeros 1023) sized_blank
    (by decide) (le_of_eq (zeros_length 1023).symm)

/-- The buffer of the example of C2 is this text. -/
theorem text_example :
    (text [(1, bytes "a.c f 1 x"), (2, bytes "b.c g 22 y z")] 1 (zeros 3)) =
      bytes "\na.c f 1 x\n\n\nb.c g 22 y z\n" ++ 0 :: zeros 3 := by
  decide

set_option maxRecDepth 100000 in
/-- C9 (counterexample): with two lines and `nr_entries = 1` the second record is
stored at index 1, and with a captured output whose last line has no newline,
where `do_cscope_query_and_show` counts 0 lines, the record of that line is
stored at index 0 of an array of no record. -/
theorem store_past_line_count :
    parse_cscope_output true (fun _ => zeros 8) (fun _ => blank)
        (bytes "a.c f 1 x\nb.c g 22 y z\n" ++ zeros 1100) 1 = .error (.oob_write 1) ∧
    query_and_show_parse true (fun _ => zeros 8) (fun _ => blank)
        (bytes "a.c f 1 x" ++ zeros 1100) 9 = (0, .error (.oob_write 0)) := by
  refine ⟨?_, ?_⟩ <;> decide!

/-- When 1023 bytes can be read behind the NUL of the output: on a buffer of N
well-formed lines `parse_cscope_output` returns an array of `nr_entries` records
when N is at most `nr_entries`, and otherwise stops at the store at index
`nr_entries`, outside the array. -/
theorem parse_cscope_output_lines_stores (lstr0 : Nat → List Nat) (out0 : Nat → CscopeOutput)
    (ls : List (Nat × List Nat)) (m n : Nat) (pad : List Nat)
    (hsz : sized lstr0 out0) (hls : ∀ p ∈ ls, line_ok p.2) (hpad : 1023 ≤ pad.length) :
    (ls.length ≤ n → ∃ recs,
      parse_cscope_output true lstr0 out0 (text ls m pad) n = .ok (some recs) ∧
        recs.length = n) ∧
    (n < ls.length →
      parse_cscope_output true lstr0 out0 (text ls m pad) n = .error (.oob_write n)) ∧
    (1 ≤ m → ls.length ≤ eb_line_count (body ls m) ∧ ∃ recs,
      query_and_show_parse true lstr0 out0 (text ls m pad) (body ls m).length =
        (eb_line_count (body ls m), .ok (some recs))) := by
  have h := fun k => parse_cscope_output_text lstr0 out0 hsz pad hpad ls m k hls
  refine ⟨?_, ?_, ?_⟩
  · intro hn
    refine ⟨_, by rw [h n, if_pos hn], ?_⟩
    simp [stored_length]
    omega
  · intro hn
    rw [h n, if_neg (by omega)]
  · intro hm
    have hcount := newlines_of_body ls m
    have hle : ls.length ≤ eb_line_count (body ls m) := by
      unfold eb_line_count
      omega
    refine ⟨hle, stored lstr0 out0 0 ls m pad ++
      (List.range' ls.length (eb_line_count (body ls m) - ls.length)).map out0, ?_⟩
    unfold query_and_show_parse
    have htake : (text ls m pad).take (body ls m).length = body ls m := by
      simp [text]
    simp only [htake]
    rw [h _, if_pos hle]

theorem parse_cscope_output_lines_stores_witness :
    ([(1, bytes "a.c f 1 x"), (2, bytes "b.c g 22 y z")].length ≤ 2 → ∃ recs,
      parse_cscope_output true (fun _ => zeros 8) (fun _ => blank)
        (text [(1, bytes "a.c f 1 x"), (2, bytes "b.c g 22 y z")] 1 (zeros 1023)) 2 =
          .ok (some recs) ∧ recs.length = 2) ∧
    (2 < [(1, bytes "a.c f 1 x"), (2, bytes "b.c g 22 y z")].length →
      parse_cscope_output true (fun _ => zeros 8) (fun _ => blank)
        (text [(1, bytes "a.c f 1 x"), (2, bytes "b.c g 22 y z")] 1 (zeros 1023)) 2 =
          .error (.oob_write 2)) ∧
    (1 ≤ 1 → [(1, bytes "a.c f 1 x"), (2, bytes "b.c g 22 y z")].length ≤
        eb_line_count (body [(1, bytes "a.c f 1 x"), (2, bytes "b.c g 22 y z")] 1) ∧
      ∃ recs, query_and_show_parse true (fun _ => zeros 8) (fun _ => blank)
        (text [(1, bytes "a.c f 1 x"), (2, bytes "b.c g 22 y z")] 1 (zeros 1023))
        (body [(1, bytes "a.c f 1 x"), (2, bytes "b.c g 22 y z")] 1).length =
          (eb_line_count (body [(1, bytes "a.c f 1 x"), (2, bytes "b.c g 22 y z")] 1),
            .ok (some recs))) :=
  parse_cscope_output_lines_stores (fun _ => zeros 8) (fun _ => blank)
    [(1, bytes "a.c f 1 x"), (2, bytes "b.c g 22 y z")] 1 2 (zeros 1023) sized_blank
    (by decide) (le_of_eq (zeros_length 1023).symm)

/-- C2 (the code at the failing inputs): on a block of at most 1024 bytes, as
`do_cscope_query` returns it, that holds well-formed lines separated by
newlines, `parse_cscope_output` returns no record: the context loop of the parse
of the first line reads past the end of the block. -/
theorem parse_cscope_output_over_read (lstr0 : Nat → List Nat) (out0 : Nat → CscopeOutput)
    (g : Nat) (l : List Nat) (ls : List (Nat × List Nat)) (m n : Nat) (pad : List Nat)
    (hsz : sized lstr0 out0) (hls : ∀ p ∈ (g, l) :: ls, line_ok p.2) (hn : 1 ≤ n)
    (hblock : (text ((g, l) :: ls) m pad).length ≤ 1024) :
    parse_cscope_output true lstr0 out0 (text ((g, l) :: ls) m pad) n = .error .oob_read := by
  have hl : line_ok l := hls (g, l) (by simp)
  obtain ⟨k, rfl⟩ : ∃ k, n = k + 1 := ⟨n - 1, by omega⟩
  have hget : ((List.range (k + 1)).map out0).get? 0 = some (out0 0) := by
    simp [List.range_succ_eq_map]
  unfold parse_cscope_output
  simp only [Bool.not_true, Bool.false_eq_true, if_false]
  rw [strtok_text g l ls m pad hl]
  simp only [parse_loop, hget]
  rw [parse_line_over_read lstr0 out0 hsz 0 l _ hl
    (le_trans (token_within_text g l ls m pad) hblock)]

set_option maxRecDepth 100000 in
theorem parse_cscope_output_over_read_witness :
    parse_cscope_output true (fun _ => zeros 8) (fun _ => blank)
      (text [(0, bytes "src/foo.c main 42 int foo(void) \x7b")] 1 (zeros 989)) 1 =
        .error .oob_read :=
  parse_cscope_output_over_read (fun _ => zeros 8) (fun _ => blank) 0
    (bytes "src/foo.c main 42 int foo(void) \x7b") [] 1 1 (zeros 989) sized_blank
    (by decide) (le_refl 1) (by decide!)

set_option maxRecDepth 100000 in
/-- The block of the failing input of C2 is the one that `do_cscope_query` hands
back for the output of the specification's example, and the count of
`do_cscope_query_and_show` for it is 1. -/
theorem do_cscope_query_example :
    do_cscope_query (fun _ => true) []
        (fun _ => some [⟨bytes "src/foo.c main 42 int foo(void) \x7b\n", false, true⟩])
        (bytes "/idx") 1 (bytes "foo") =
      .ok { ret := 0,
            response := some (text [(0, bytes "src/foo.c main 42 int foo(void) \x7b")] 1
              (zeros 989)),
            len := some 34 } ∧
    (text [(0, bytes "src/foo.c main 42 int foo(void) \x7b")] 1 (zeros 989)).length = 1024 ∧
    eb_line_count ((text [(0, bytes "src/foo.c main 42 int foo(void) \x7b")] 1
      (zeros 989)).take 34) = 1 := by
  refine ⟨?_, ?_, ?_⟩ <;> decide!

/-- C9 (amended): on every buffer and for every `nr_entries`,
`parse_cscope_output`, which does not check the bound itself, writes records
only at indices strictly below `nr_entries` when the buffer holds at most
`nr_entries` non-empty newline-delimited tokens; the first write outside the
array, if there is one, is at index `nr_entries`, and there is one only when the
buffer holds more than `nr_entries` tokens; when the function returns, the
buffer held at most `nr_entries` tokens. For the count of
`do_cscope_query_and_show`, the number of newlines of the captured output, a
captured output that is empty or ends with a newline holds at most that many
tokens, and no write is outside the array. -/
theorem parse_cscope_output_store_bound (heap : Bool) (lstr0 : Nat → List Nat)
    (out0 : Nat → CscopeOutput) (output : List Nat) (n : Nat) :
    (∀ j, parse_cscope_output heap lstr0 out0 output n = .error (.oob_write j) →
      j = n ∧ n < count_tokens false output) ∧
    (count_tokens false output ≤ n →
      ∀ j, parse_cscope_output heap lstr0 out0 output n ≠ .error (.oob_write j)) ∧
    (∀ recs, parse_cscope_output heap lstr0 out0 output n = .ok (some recs) →
      recs.length = n ∧ count_tokens false output ≤ n) ∧
    (∀ captured pad, output = captured ++ 0 :: pad →
      (∀ x, captured.getLast? = some x → x = 10) →
      count_tokens false output ≤ eb_line_count captured ∧
      ∀ j, (query_and_show_parse heap lstr0 out0 output captured.length).2 ≠
        .error (.oob_write j)) := by
  refine ⟨fun j h => parse_cscope_output_store_outside heap lstr0 out0 output n j h, ?_,
    fun recs h => parse_cscope_output_returns heap lstr0 out0 output n recs h, ?_⟩
  · intro hle j h
    have := (parse_cscope_output_store_outside heap lstr0 out0 output n j h).2
    omega
  · intro captured pad hout hlast
    subst hout
    have hc : count_tokens false (captured ++ 0 :: pad) ≤ eb_line_count captured :=
      (count_tokens_le_newlines pad captured hlast).1
    refine ⟨hc, ?_⟩
    intro j h
    have htake : (captured ++ 0 :: pad).take captured.length = captured := by simp
    simp only [query_and_show_parse, htake] at h
    have := (parse_cscope_output_store_outside heap lstr0 out0 _ _ j h).2
    omega

set_option maxRecDepth 100000 in
/-- Two tokens, of which the first is no well-formed line: with room for two
records the stores are inside the array, with room for one the second is not. -/
theorem parse_cscope_output_two_tokens :
    count_tokens false (bytes "abc\nd.c f 1 x\n" ++ zeros 1100) = 2 ∧
    (parse_cscope_output true (fun _ => zeros 8) (fun _ => blank)
        (bytes "abc\nd.c f 1 x\n" ++ zeros 1100) 2).map (Option.map List.length) =
      .ok (some 2) ∧
    parse_cscope_output true (fun _ => zeros 8) (fun _ => blank)
        (bytes "abc\nd.c f 1 x\n" ++ zeros 1100) 1 = .error (.oob_write 1) := by
  refine ⟨?_, ?_, ?_⟩ <;> decide!

end Cscope
